import Mathlib

/-! # CTranslate2: vectorized CPU kernels and the model registry

A shallow embedding of `src/cpu/kernels.cc` (the chunking routine
`vectorized_iter`, the unary and binary transforms built on it and the
elementwise operations instantiating them) and of the inline parts of
`include/ctranslate2/models/model.h`.

Conventions of the embedding:

* `dim_t`, the signed index type of the sources, is embedded as `Int`.
  Every value that `vectorized_iter` computes (the remainder, the rounded
  size, the loop index and its increment) lies between 0 and `size`, see
  `chunks_bounds` (between `size` and 0 for a negative size, see
  `tdiv_tmod_of_neg`), so nothing can wrap for a size that fits the machine
  type and the unbounded integers lose nothing.
* `size % vec_width` is the C++ remainder, which truncates toward zero:
  `Int.tmod`.
* A pointer `T*` is an address, an `Int`; `p + i` is pointer arithmetic and the
  memory is a map from addresses to elements. Two pointers may alias.
* A function that returns `void` and writes through its pointers becomes a
  function from the state before the call to the state after it.
-/

namespace ctranslate2

/-! ## The kernels of `src/cpu/kernels.cc`: definitions -/

namespace cpu

variable {σ α : Type}

set_option linter.unusedVariables false in
/-- The loop `for (dim_t i = 0; i < size; i += vec_width) func(i, vec_width);` of
`vectorized_iter`, started at index `i`. The template constant `vec_width` is a
vector width, hence positive; this is what makes the loop terminate. -/
def vectorized_iter_loop {σ : Type} (vec_width : Int) (hw : 0 < vec_width) (size : Int)
    (func : Int → Int → σ → σ) (i : Int) (s : σ) : σ :=
  if h : i < size then
    vectorized_iter_loop vec_width hw size func (i + vec_width) (func i vec_width s)
  else
    s
termination_by (size - i).toNat
decreasing_by omega

/-- The routine `vectorized_iter<vec_width>(size, func)`: the callback `func(i, width)`
acts on a state of type `σ`; `remaining` is `size % vec_width`, which truncates toward
zero. -/
def vectorized_iter {σ : Type} (vec_width : Int) (hw : 0 < vec_width) (size : Int)
    (func : Int → Int → σ → σ) (s : σ) : σ :=
  let remaining := Int.tmod size vec_width
  let size := size - remaining
  let s := vectorized_iter_loop vec_width hw size func 0 s
  if remaining ≠ 0 then func size remaining s else s

/-- The calls `func(i, width)` that `vectorized_iter` makes, in order: the routine run
with a callback that only records its arguments. -/
def iter_calls (vec_width : Int) (hw : 0 < vec_width) (size : Int) : List (Int × Int) :=
  vectorized_iter vec_width hw size (fun i width log => log ++ [(i, width)]) []

/-- Memory: a map from addresses to elements. -/
abbrev Mem (α : Type) := Int → α

/-- The class `Vec<T, ISA>` of `cpu/vec.h` and `cpu/vec_avx.h`, which are not part of the
sources at hand: it is a parameter of the kernels. `value_type` is the register type,
`width` the number of lanes; the operations that touch memory act on a state `σ`.
`load_value` is the overload `Vec::load(T value)` that broadcasts a scalar, `load` is
`Vec::load(const T* ptr, dim_t count)` and `store` is
`Vec::store(value_type v, T* ptr, dim_t count)`. -/
structure Vec (σ α : Type) where
  value_type : Type
  width : Int
  width_pos : 0 < width
  load_value : α → σ → value_type × σ
  load : Int → Int → σ → value_type × σ
  store : value_type → Int → Int → σ → σ
  rcp : value_type → value_type
  exp : value_type → value_type
  log : value_type → value_type
  sin : value_type → value_type
  cos : value_type → value_type
  add : value_type → value_type → value_type
  sub : value_type → value_type → value_type
  mul : value_type → value_type → value_type
  max : value_type → value_type → value_type
  min : value_type → value_type → value_type

/-- The body of the lambda that `vectorized_unary_transform` hands to `vectorized_iter`. -/
def unary_chunk (V : Vec σ α) (x y : Int) (func : V.value_type → V.value_type)
    (i width : Int) (s : σ) : σ :=
  let v := V.load (x + i) width s
  V.store (func v.1) (y + i) width v.2

/-- The routine `vectorized_unary_transform<ISA>(x, y, size, func)`. -/
def vectorized_unary_transform (V : Vec σ α) (x y : Int) (size : Int)
    (func : V.value_type → V.value_type) (s : σ) : σ :=
  vectorized_iter V.width V.width_pos size (unary_chunk V x y func) s

/-- The body of the lambda that `vectorized_binary_transform` hands to `vectorized_iter`. -/
def binary_chunk (V : Vec σ α) (a b c : Int) (func : V.value_type → V.value_type → V.value_type)
    (i width : Int) (s : σ) : σ :=
  let v1 := V.load (a + i) width s
  let v2 := V.load (b + i) width v1.2
  V.store (func v1.1 v2.1) (c + i) width v2.2

/-- The routine `vectorized_binary_transform<ISA>(a, b, c, size, func)`. -/
def vectorized_binary_transform (V : Vec σ α) (a b c : Int) (size : Int)
    (func : V.value_type → V.value_type → V.value_type) (s : σ) : σ :=
  vectorized_iter V.width V.width_pos size (binary_chunk V a b c func) s

/-- The kernel `rcp<ISA>(x, y, size)`. -/
def rcp (V : Vec σ α) (x y : Int) (size : Int) (s : σ) : σ :=
  vectorized_unary_transform V x y size V.rcp s

/-- The kernel `exp<TARGET_ISA>(x, y, size)`. -/
def exp (V : Vec σ α) (x y : Int) (size : Int) (s : σ) : σ :=
  vectorized_unary_transform V x y size V.exp s

/-- The kernel `log<TARGET_ISA>(x, y, size)`. -/
def log (V : Vec σ α) (x y : Int) (size : Int) (s : σ) : σ :=
  vectorized_unary_transform V x y size V.log s

/-- The kernel `sin<TARGET_ISA>(x, y, size)`. -/
def sin (V : Vec σ α) (x y : Int) (size : Int) (s : σ) : σ :=
  vectorized_unary_transform V x y size V.sin s

/-- The kernel `cos<TARGET_ISA>(x, y, size)`. -/
def cos (V : Vec σ α) (x y : Int) (size : Int) (s : σ) : σ :=
  vectorized_unary_transform V x y size V.cos s

/-- The kernel `add<ISA>(T a, const T* x, T* y, dim_t size)`: scalar-broadcast form. -/
def add_scalar (V : Vec σ α) (a : α) (x y : Int) (size : Int) (s : σ) : σ :=
  let vec_a := V.load_value a s
  vectorized_unary_transform V x y size (fun v => V.add v vec_a.1) vec_a.2

/-- The kernel `add<ISA>(const T* a, const T* b, T* c, dim_t size)`. -/
def add (V : Vec σ α) (a b c : Int) (size : Int) (s : σ) : σ :=
  vectorized_binary_transform V a b c size V.add s

/-- The kernel `sub<ISA>(const T* a, const T* b, T* c, dim_t size)`. -/
def sub (V : Vec σ α) (a b c : Int) (size : Int) (s : σ) : σ :=
  vectorized_binary_transform V a b c size V.sub s

/-- The kernel `mul<ISA>(T a, const T* x, T* y, dim_t size)`: scalar-broadcast form. -/
def mul_scalar (V : Vec σ α) (a : α) (x y : Int) (size : Int) (s : σ) : σ :=
  let vec_a := V.load_value a s
  vectorized_unary_transform V x y size (fun v => V.mul v vec_a.1) vec_a.2

/-- The kernel `mul<ISA>(const T* a, const T* b, T* c, dim_t size)`. -/
def mul (V : Vec σ α) (a b c : Int) (size : Int) (s : σ) : σ :=
  vectorized_binary_transform V a b c size V.mul s

/-- The kernel `max<ISA>(T a, const T* x, T* y, dim_t size)`: scalar-broadcast form. -/
def max_scalar (V : Vec σ α) (a : α) (x y : Int) (size : Int) (s : σ) : σ :=
  let vec_a := V.load_value a s
  vectorized_unary_transform V x y size (fun v => V.max v vec_a.1) vec_a.2

/-- The kernel `max<ISA>(const T* a, const T* b, T* c, dim_t size)`. -/
def max (V : Vec σ α) (a b c : Int) (size : Int) (s : σ) : σ :=
  vectorized_binary_transform V a b c size V.max s

/-- The kernel `min<ISA>(T a, const T* x, T* y, dim_t size)`: scalar-broadcast form. -/
def min_scalar (V : Vec σ α) (a : α) (x y : Int) (size : Int) (s : σ) : σ :=
  let vec_a := V.load_value a s
  vectorized_unary_transform V x y size (fun v => V.min v vec_a.1) vec_a.2

/-- The kernel `min<ISA>(const T* a, const T* b, T* c, dim_t size)`. -/
def min (V : Vec σ α) (a b c : Int) (size : Int) (s : σ) : σ :=
  vectorized_binary_transform V a b c size V.min s

/-- Run a list of calls `(i, width)` of the callback, in order. -/
def run_calls (func : Int → Int → σ → σ) (cs : List (Int × Int)) (s : σ) : σ :=
  cs.foldl (fun s c => func c.1 c.2 s) s

/-- The `n` full-width calls `(0, W), (W, W), ..., ((n-1) W, W)`. -/
def full_chunks (W : Int) (n : Nat) : List (Int × Int) :=
  (List.range n).map (fun k : Nat => ((k : Int) * W, W))

/-- Closed form of the calls of `vectorized_iter<W>(N, func)`. -/
def chunks (W N : Int) : List (Int × Int) :=
  full_chunks W (Int.tdiv N W).toNat ++
    (if Int.tmod N W ≠ 0 then [(N - Int.tmod N W, Int.tmod N W)] else [])

/-- The load and store assumption on a vector class over a memory, stated through an
observation `lane v j` of lane `j` of a register: for a count `w` between 1 and the
width, `load(p, w)` leaves the memory alone and its first `w` lanes are the `w` elements
at `p`; `store(v, p, w)` writes the first `w` lanes of `v` to the `w` addresses at `p`
and nothing else. -/
structure Vec.Exact (V : Vec (Mem α) α) (lane : V.value_type → Int → α) : Prop where
  load_mem : ∀ p w m, 1 ≤ w → w ≤ V.width → (V.load p w m).2 = m
  load_lane : ∀ p w m j, 1 ≤ w → w ≤ V.width → 0 ≤ j → j < w →
    lane (V.load p w m).1 j = m (p + j)
  store_mem : ∀ v p w m a, 1 ≤ w → w ≤ V.width →
    V.store v p w m a = if p ≤ a ∧ a < p + w then lane v (a - p) else m a

/-- The broadcast `Vec::load(T value)` leaves the memory alone and fills every lane
with the value. -/
structure Vec.Broadcast (V : Vec (Mem α) α) (lane : V.value_type → Int → α) : Prop where
  load_value_mem : ∀ a m, (V.load_value a m).2 = m
  load_value_lane : ∀ a m j, 0 ≤ j → j < V.width → lane (V.load_value a m).1 j = a

/-- A unary primitive on registers that applies the scalar function `f` in every lane. -/
def LaneWise (V : Vec (Mem α) α) (lane : V.value_type → Int → α)
    (func : V.value_type → V.value_type) (f : α → α) : Prop :=
  ∀ v j, 0 ≤ j → j < V.width → lane (func v) j = f (lane v j)

/-- A binary primitive on registers that applies the scalar function `g` in every lane,
first operand first. -/
def LaneWise2 (V : Vec (Mem α) α) (lane : V.value_type → Int → α)
    (func : V.value_type → V.value_type → V.value_type) (g : α → α → α) : Prop :=
  ∀ v1 v2 j, 0 ≤ j → j < V.width → lane (func v1 v2) j = g (lane v1 j) (lane v2 j)

/-- The memory in which the `e` elements at `y` have been replaced by `F m 0, ...,
F m (e-1)`, everything else being as in `m`. -/
def written (F : Mem α → Int → α) (y e : Int) (m : Mem α) : Mem α :=
  fun a => if y ≤ a ∧ a < y + e then F m (a - y) else m a

/-- The scalar primitives of an element type. -/
structure ScalarOps (α : Type) where
  rcp : α → α
  exp : α → α
  log : α → α
  sin : α → α
  cos : α → α
  add : α → α → α
  sub : α → α → α
  mul : α → α → α
  max : α → α → α
  min : α → α → α

/-- Modelled from the spec: a vector class `Vec<T, ISA>` of `cpu/vec.h`, which is not
among the sources. A register is the map from lane numbers to elements; `load(p, count)`
reads the first `count` elements at `p` (the other lanes hold `pad`), `store(v, p, count)`
writes the first `count` lanes of `v` at `p`, the broadcast fills every lane and each
primitive applies the scalar one in every lane. -/
def laneVec (W : Int) (hW : 0 < W) (pad : α) (ops : ScalarOps α) : Vec (Mem α) α where
  value_type := Int → α
  width := W
  width_pos := hW
  load_value := fun a m => (fun _ => a, m)
  load := fun p count m => (fun j => if 0 ≤ j ∧ j < count then m (p + j) else pad, m)
  store := fun v p count m => fun a => if p ≤ a ∧ a < p + count then v (a - p) else m a
  rcp := fun v j => ops.rcp (v j)
  exp := fun v j => ops.exp (v j)
  log := fun v j => ops.log (v j)
  sin := fun v j => ops.sin (v j)
  cos := fun v j => ops.cos (v j)
  add := fun v1 v2 j => ops.add (v1 j) (v2 j)
  sub := fun v1 v2 j => ops.sub (v1 j) (v2 j)
  mul := fun v1 v2 j => ops.mul (v1 j) (v2 j)
  max := fun v1 v2 j => ops.max (v1 j) (v2 j)
  min := fun v1 v2 j => ops.min (v1 j) (v2 j)

/-- Lane `j` of a register of `laneVec`. -/
def laneVec_lane (W : Int) (hW : 0 < W) (pad : α) (ops : ScalarOps α) :
    (laneVec W hW pad ops).value_type → Int → α :=
  fun v j => v j

/-- Integer stand-ins for the scalar primitives, for concrete evaluations. -/
def intOps : ScalarOps Int where
  rcp := fun a => 1 / a
  exp := fun a => 2 ^ a.toNat
  log := fun a => (Nat.log 2 a.toNat : Nat)
  sin := fun a => a % 3 - 1
  cos := fun a => (a + 1) % 3 - 1
  add := fun a b => a + b
  sub := fun a b => a - b
  mul := fun a b => a * b
  max := fun a b => if a < b then b else a
  min := fun a b => if b < a then b else a

/-- A memory for concrete evaluations: address `a` holds `3 a + 1`. -/
def mem0 : Mem Int := fun a => 3 * a + 1

/-- One call of a memory operation of the vector class, with its arguments. -/
inductive Access where
  | broadcast : Access
  | load (ptr count : Int) : Access
  | store (ptr count : Int) : Access
  deriving DecidableEq

/-- The vector class `V` instrumented: the state carries, next to the state of `V`, the
list of the calls of `load_value`, `load` and `store` made so far, in order. -/
def Vec.traced (V : Vec σ α) : Vec (σ × List Access) α where
  value_type := V.value_type
  width := V.width
  width_pos := V.width_pos
  load_value := fun a s => ((V.load_value a s.1).1, ((V.load_value a s.1).2, s.2 ++ [Access.broadcast]))
  load := fun p count s => ((V.load p count s.1).1, ((V.load p count s.1).2, s.2 ++ [Access.load p count]))
  store := fun v p count s => (V.store v p count s.1, s.2 ++ [Access.store p count])
  rcp := V.rcp
  exp := V.exp
  log := V.log
  sin := V.sin
  cos := V.cos
  add := V.add
  sub := V.sub
  mul := V.mul
  max := V.max
  min := V.min

/-- A vector class of width 4 over the integers, for concrete evaluations. -/
def vec4 : Vec (Mem Int) Int := laneVec 4 (by decide) 0 intOps

/-- A vector class of width 1 over the integers, for concrete evaluations. -/
def vec1 : Vec (Mem Int) Int := laneVec 1 (by decide) 0 intOps

/-- Lane `j` of a register of `vec4`. -/
def lane4 : vec4.value_type → Int → Int := laneVec_lane 4 (by decide) 0 intOps

/-- Lane `j` of a register of `vec1`. -/
def lane1 : vec1.value_type → Int → Int := laneVec_lane 1 (by decide) 0 intOps

/-- The calls of `load` and `store` that the chunk `(i, width)` of the unary transform
issues, in order. -/
def unary_accesses (x y : Int) (c : Int × Int) : List Access :=
  [Access.load (x + c.1) c.2, Access.store (y + c.1) c.2]

/-- The calls of `load` and `store` that the chunk `(i, width)` of the binary transform
issues, in order. -/
def binary_accesses (a b c : Int) (ch : Int × Int) : List Access :=
  [Access.load (a + ch.1) ch.2, Access.load (b + ch.1) ch.2, Access.store (c + ch.1) ch.2]

/-- The scalar, element-by-element reference of a unary operation, in the spec's words:
for `i = 0, ..., N - 1` in turn, `y[i] = f(x[i])`. -/
def scalar_unary_reference (f : α → α) (x y N : Int) (m : Mem α) : Mem α :=
  (List.range N.toNat).foldl
    (fun m (i : Nat) => Function.update m (y + (i : Int)) (f (m (x + (i : Int))))) m

/-- The scalar, element-by-element reference of a binary operation, in the spec's words:
for `i = 0, ..., N - 1` in turn, `c[i] = g(a[i], b[i])`. -/
def scalar_binary_reference (g : α → α → α) (a b c N : Int) (m : Mem α) : Mem α :=
  (List.range N.toNat).foldl
    (fun m (i : Nat) =>
      Function.update m (c + (i : Int)) (g (m (a + (i : Int))) (m (b + (i : Int))))) m

/-- What running in place needs of two logged calls, the first made before the second:
when the first is a store and the second a load, the store does not touch the range that
the load reads. -/
def store_clear_of_load (e1 e2 : Access) : Prop :=
  match e1, e2 with
  | Access.store q v, Access.load p w => q + v ≤ p ∨ p + w ≤ q
  | _, _ => True

end cpu

/-! ## The model registry of `models/model.h`: definitions -/

namespace models

variable {StorageView T ε : Type}

/-- The constant `current_binary_version` of `models/model.h`. -/
def current_binary_version : Nat := 4

/-- Modelled from the spec: the error taxonomy of the loader and the registry, from the
spec's part on error handling; the sources at hand declare no error type. -/
inductive Error where
  | FormatError : Error
  | UnsupportedRevisionError : Error
  | MissingVariableError : Error
  | UnsupportedComputeTypeError : Error
  | DeviceUnavailableError : Error
  deriving DecidableEq

/-- The registry fields of the class `Model`: `_variable_index` maps a variable name to
its tensor, `_variable_alias` an alias to a variable name, `_spec_revision` is the
revision of the loaded container. A map is the list of its entries, the first entry of
a key being the one that counts. The tensor type `StorageView` is a parameter. -/
structure Model (StorageView : Type) where
  _variable_index : List (String × StorageView)
  _variable_alias : List (String × String)
  _spec_revision : Nat

/-- Modelled from the spec: the alias hop of the lookups, whose code (`models/model.cc`)
is not among the sources; the spec's "Alias: one-hop mapping from an alternate name to a
canonical variable name, resolved at lookup time". The name of the index entry that
`name` stands for: the target of its alias if it has one, else `name` itself. -/
def Model.resolve_alias (self : Model StorageView) (name : String) : String :=
  match self._variable_alias.lookup name with
  | some variable_name => variable_name
  | none => name

/-- Modelled from the spec: `Model::get_variable_if_exists`, declared in `models/model.h`
and defined in `models/model.cc`, which is not among the sources; the spec's
"optional borrowed reference; resolves one alias hop first". -/
def Model.get_variable_if_exists (self : Model StorageView) (name : String) :
    Option StorageView :=
  self._variable_index.lookup (self.resolve_alias name)

/-- The member template `Model::get_attribute_with_default<T>` of `models/model.h`. The
lookup `get_variable_if_exists` and the decoder `StorageView::as_scalar<T>`, which may
fail, are defined outside the sources at hand and are parameters. -/
def get_attribute_with_default (get_variable_if_exists : String → Option StorageView)
    (as_scalar : StorageView → Except ε T) (name : String) (default_value : T) :
    Except ε T :=
  match get_variable_if_exists name with
  | none => Except.ok default_value
  | some attr => as_scalar attr

/-- Modelled from the spec: the header of a binary model container, once read and
validated, with the spec revision it carries. -/
structure Header where
  spec_revision : Nat

/-- Modelled from the spec: `Model::load`, declared in `models/model.h` and defined in
`models/model.cc`, which is not among the sources; the spec's "read and validate a
container header (magic + spec_revision); reject if spec_revision >
current_binary_version with UnsupportedRevisionError", after which the variables are
loaded. Reading and validating the header of the container at `path` and loading the
variables are parameters. -/
def load (read_header : String → Except Error Header)
    (load_variables : String → Header → Except Error (Model StorageView))
    (path : String) : Except Error (Model StorageView) :=
  match read_header path with
  | Except.error e => Except.error e
  | Except.ok header =>
    if header.spec_revision > current_binary_version then
      Except.error Error.UnsupportedRevisionError
    else
      load_variables path header

/-- A registry in which the name `b` is a variable and also an alias of the variable `c`. -/
def shadowed_registry : Model Nat :=
  { _variable_index := [("b", 1), ("c", 2)], _variable_alias := [("b", "c")], _spec_revision := 4 }

end models

/-! ## The kernels: lemmas -/

namespace cpu

variable {σ α : Type}

theorem vectorized_iter_loop_lt (W : Int) (hw : 0 < W) (size : Int) (func : Int → Int → σ → σ)
    (i : Int) (s : σ) (h : i < size) :
    vectorized_iter_loop W hw size func i s
      = vectorized_iter_loop W hw size func (i + W) (func i W s) := by
  rw [vectorized_iter_loop, dif_pos h]

theorem vectorized_iter_loop_ge (W : Int) (hw : 0 < W) (size : Int) (func : Int → Int → σ → σ)
    (i : Int) (s : σ) (h : size ≤ i) :
    vectorized_iter_loop W hw size func i s = s := by
  rw [vectorized_iter_loop, dif_neg (not_lt.mpr h)]

theorem vectorized_iter_loop_range (W : Int) (hw : 0 < W) (func : Int → Int → σ → σ) (n : Nat) :
    ∀ (k : Nat) (s : σ),
      vectorized_iter_loop W hw (((k + n : Nat) : Int) * W) func ((k : Int) * W) s
        = (List.range' k n).foldl (fun s (j : Nat) => func ((j : Int) * W) W s) s := by
  induction n with
  | zero =>
    intro k s
    simp only [Nat.add_zero, List.range'_zero, List.foldl_nil]
    exact vectorized_iter_loop_ge W hw _ func _ s le_rfl
  | succ n ih =>
    intro k s
    have hlt : (k : Int) * W < ((k + (n + 1) : Nat) : Int) * W := by
      have : (k : Int) < ((k + (n + 1) : Nat) : Int) := by push_cast; omega
      exact mul_lt_mul_of_pos_right this hw
    rw [vectorized_iter_loop_lt W hw _ func _ s hlt]
    have e1 : (k : Int) * W + W = ((k + 1 : Nat) : Int) * W := by push_cast; ring
    have e2 : k + (n + 1) = (k + 1) + n := by omega
    rw [e1, e2, ih (k + 1)]
    simp [List.range'_succ]

theorem vectorized_iter_loop_full (W : Int) (hw : 0 < W) (func : Int → Int → σ → σ) (t : Int)
    (s : σ) :
    vectorized_iter_loop W hw (W * t) func 0 s = run_calls func (full_chunks W t.toNat) s := by
  rcases le_or_lt t 0 with ht | ht
  · have h0 : t.toNat = 0 := Int.toNat_eq_zero.mpr ht
    rw [h0]
    simp only [run_calls, full_chunks, List.range_zero, List.map_nil, List.foldl_nil]
    exact vectorized_iter_loop_ge W hw _ func _ s (Int.mul_nonpos_of_nonneg_of_nonpos hw.le ht)
  · have hn : ((t.toNat : Nat) : Int) = t := Int.toNat_of_nonneg ht.le
    have h := vectorized_iter_loop_range W hw func t.toNat 0 s
    simp only [Nat.zero_add, Nat.cast_zero, zero_mul] at h
    rw [hn, mul_comm] at h
    rw [h, run_calls, full_chunks, List.foldl_map, List.range_eq_range']

/-- The routine `vectorized_iter` runs exactly the calls of `chunks`, in order. -/
theorem vectorized_iter_eq_run_calls (W : Int) (hw : 0 < W) (N : Int)
    (func : Int → Int → σ → σ) (s : σ) :
    vectorized_iter W hw N func s = run_calls func (chunks W N) s := by
  have hsize : N - Int.tmod N W = W * Int.tdiv N W := by rw [Int.tmod_def]; ring
  simp only [vectorized_iter, chunks]
  rw [hsize, vectorized_iter_loop_full]
  by_cases hr : Int.tmod N W = 0
  · simp [hr, run_calls]
  · simp [hr, run_calls, List.foldl_append]

theorem run_calls_append (func : Int → Int → σ → σ) (cs ds : List (Int × Int)) (s : σ) :
    run_calls func (cs ++ ds) s = run_calls func ds (run_calls func cs s) := by
  simp [run_calls, List.foldl_append]

theorem full_chunks_succ (W : Int) (n : Nat) :
    full_chunks W (n + 1) = full_chunks W n ++ [((n : Int) * W, W)] := by
  simp [full_chunks, List.range_succ]

theorem run_calls_record (cs : List (Int × Int)) (l : List (Int × Int)) :
    run_calls (fun i width log => log ++ [(i, width)]) cs l = l ++ cs := by
  induction cs generalizing l with
  | nil => simp [run_calls]
  | cons c cs ih =>
    have h := ih (l ++ [c])
    simp only [run_calls, List.foldl_cons] at h ⊢
    rw [h]
    simp

/-- The recorded calls are the closed form. -/
theorem iter_calls_eq_chunks (W : Int) (hw : 0 < W) (N : Int) :
    iter_calls W hw N = chunks W N := by
  rw [iter_calls, vectorized_iter_eq_run_calls, run_calls_record, List.nil_append]

/-- For a size that is not negative the truncating quotient and remainder are the
usual ones. -/
theorem chunks_of_nonneg (W : Int) (hw : 0 < W) (N : Int) (hN : 0 ≤ N) :
    chunks W N = full_chunks W (N / W).toNat ++
      (if N % W ≠ 0 then [((N / W) * W, N % W)] else []) := by
  have h1 : Int.tmod N W = N % W := Int.tmod_eq_emod hN hw.le
  have h2 : Int.tdiv N W = N / W := Int.tdiv_eq_ediv hN hw.le
  have h3 : N - N % W = (N / W) * W := by
    have := Int.emod_add_ediv N W
    linarith
  rw [chunks, h1, h2, h3]

/-- One more chunk: a step that writes `F` of the current memory on `[e, e + w)`,
after `[0, e)` has been written, has written `[0, e + w)`, as long as the values `F`
reads for an index are not among the elements written before it. -/
theorem written_step (F : Mem α → Int → α) (y N : Int)
    (hF : ∀ m m1 k e, 0 ≤ k → k < N → e ≤ k →
      (∀ a, ¬ (y ≤ a ∧ a < y + e) → m1 a = m a) → F m1 k = F m k)
    (m : Mem α) (e w : Int) (he : 0 ≤ e) (hw1 : 1 ≤ w) (hewN : e + w ≤ N)
    (m2 : Mem α)
    (h2 : m2 = fun a => if y + e ≤ a ∧ a < y + e + w then F (written F y e m) (a - y)
      else written F y e m a) :
    m2 = written F y (e + w) m := by
  subst h2
  funext a
  by_cases h : y + e ≤ a ∧ a < y + e + w
  · have hk : F (written F y e m) (a - y) = F m (a - y) := by
      apply hF m (written F y e m) (a - y) e (by omega) (by omega) (by omega)
      intro b hb
      simp only [written, if_neg hb]
    have hr : y ≤ a ∧ a < y + (e + w) := by omega
    simp only [if_pos h, hk, written, if_pos hr]
  · simp only [if_neg h, written]
    by_cases h1 : y ≤ a ∧ a < y + e
    · have hr : y ≤ a ∧ a < y + (e + w) := by omega
      rw [if_pos h1, if_pos hr]
    · have hr : ¬ (y ≤ a ∧ a < y + (e + w)) := by omega
      rw [if_neg h1, if_neg hr]

theorem written_zero (F : Mem α → Int → α) (y : Int) (m : Mem α) : written F y 0 m = m := by
  funext a
  have h : ¬ (y ≤ a ∧ a < y + 0) := by omega
  simp only [written, if_neg h]

/-- The full-width chunks of a callback that writes `F` chunk by chunk. -/
theorem run_full_chunks_written (W : Int) (hw : 0 < W) (step : Int → Int → Mem α → Mem α)
    (F : Mem α → Int → α) (y N : Int)
    (hstep : ∀ i w m, 0 ≤ i → 1 ≤ w → w ≤ W → i + w ≤ N →
      step i w m = fun a => if y + i ≤ a ∧ a < y + i + w then F m (a - y) else m a)
    (hF : ∀ m m1 k e, 0 ≤ k → k < N → e ≤ k →
      (∀ a, ¬ (y ≤ a ∧ a < y + e) → m1 a = m a) → F m1 k = F m k)
    (m : Mem α) (n : Nat) (hn : (n : Int) * W ≤ N) :
    run_calls step (full_chunks W n) m = written F y ((n : Int) * W) m := by
  induction n with
  | zero => simp [run_calls, full_chunks, written_zero]
  | succ n ih =>
    have hle : (n : Int) * W + W ≤ N := by
      have : ((n + 1 : Nat) : Int) * W = (n : Int) * W + W := by push_cast; ring
      omega
    have hn0 : (0 : Int) ≤ (n : Int) * W := mul_nonneg (Int.natCast_nonneg n) hw.le
    rw [full_chunks_succ, run_calls_append, ih (by omega)]
    have e : ((n + 1 : Nat) : Int) * W = (n : Int) * W + W := by push_cast; ring
    rw [e]
    apply written_step F y N hF m _ W hn0 (by omega) hle
    simp only [run_calls, List.foldl_cons, List.foldl_nil]
    exact hstep _ W _ hn0 (by omega) le_rfl hle

/-- The whole routine, for a callback that writes `F` chunk by chunk: the `N` elements
at `y` become `F m 0, ..., F m (N-1)` and nothing else changes. -/
theorem vectorized_iter_written (W : Int) (hw : 0 < W) (step : Int → Int → Mem α → Mem α)
    (F : Mem α → Int → α) (y N : Int) (hN : 0 ≤ N)
    (hstep : ∀ i w m, 0 ≤ i → 1 ≤ w → w ≤ W → i + w ≤ N →
      step i w m = fun a => if y + i ≤ a ∧ a < y + i + w then F m (a - y) else m a)
    (hF : ∀ m m1 k e, 0 ≤ k → k < N → e ≤ k →
      (∀ a, ¬ (y ≤ a ∧ a < y + e) → m1 a = m a) → F m1 k = F m k)
    (m : Mem α) :
    vectorized_iter W hw N step m = written F y N m := by
  have hq : 0 ≤ N / W := Int.ediv_nonneg hN hw.le
  have hcast : (((N / W).toNat : Nat) : Int) = N / W := Int.toNat_of_nonneg hq
  have hdiv : N % W + W * (N / W) = N := Int.emod_add_ediv N W
  have hr0 : 0 ≤ N % W := Int.emod_nonneg N hw.ne'
  have hrW : N % W < W := Int.emod_lt_of_pos N hw
  have hqW : (N / W) * W = N - N % W := by linarith
  have hqW0 : 0 ≤ (N / W) * W := mul_nonneg hq hw.le
  rw [vectorized_iter_eq_run_calls, chunks_of_nonneg W hw N hN, run_calls_append,
    run_full_chunks_written W hw step F y N hstep hF m _ (by rw [hcast]; omega), hcast]
  by_cases hr : N % W = 0
  · have : (N / W) * W = N := by omega
    simp [hr, run_calls, this]
  · have hfin : N = (N / W) * W + N % W := by omega
    rw [if_pos hr]
    conv_rhs => rw [hfin]
    apply written_step F y N hF m _ (N % W) (by omega) (by omega) (by omega)
    simp only [run_calls, List.foldl_cons, List.foldl_nil]
    exact hstep _ _ _ (by omega) (by omega) hrW.le (by omega)

/-- One chunk of the unary transform, under the load and store assumption. -/
theorem unary_chunk_mem (V : Vec (Mem α) α) (lane : V.value_type → Int → α)
    (hV : V.Exact lane) (func : V.value_type → V.value_type) (f : α → α)
    (hf : LaneWise V lane func f) (x y i w : Int) (m : Mem α) (hw1 : 1 ≤ w)
    (hwW : w ≤ V.width) :
    unary_chunk V x y func i w m
      = fun a => if y + i ≤ a ∧ a < y + i + w then f (m (x + (a - y))) else m a := by
  funext a
  simp only [unary_chunk]
  rw [hV.store_mem _ _ _ _ _ hw1 hwW, hV.load_mem _ _ _ hw1 hwW]
  by_cases h : y + i ≤ a ∧ a < y + i + w
  · rw [if_pos h, if_pos h, hf _ _ (by omega) (by omega),
      hV.load_lane _ _ _ _ hw1 hwW (by omega) (by omega)]
    congr 2
    ring
  · rw [if_neg h, if_neg h]

/-- The final memory of the unary transform: the `N` elements at `y` are `f` of the
elements that were at `x`, and nothing else has changed. The output may start at or
before the input, or after its end. -/
theorem unary_transform_written (V : Vec (Mem α) α) (lane : V.value_type → Int → α)
    (hV : V.Exact lane) (func : V.value_type → V.value_type) (f : α → α)
    (hf : LaneWise V lane func f) (x y N : Int) (hN : 0 ≤ N) (hxy : y ≤ x ∨ x + N ≤ y)
    (m : Mem α) :
    vectorized_unary_transform V x y N func m = written (fun m k => f (m (x + k))) y N m := by
  apply vectorized_iter_written V.width V.width_pos _ (fun m k => f (m (x + k))) y N hN
  · intro i w m _ hw1 hwW _
    exact unary_chunk_mem V lane hV func f hf x y i w m hw1 hwW
  · intro m m1 k e hk0 hkN hek hm
    show f (m1 (x + k)) = f (m (x + k))
    rw [hm (x + k) (by omega)]

/-- One chunk of the binary transform, under the load and store assumption. -/
theorem binary_chunk_mem (V : Vec (Mem α) α) (lane : V.value_type → Int → α)
    (hV : V.Exact lane) (func : V.value_type → V.value_type → V.value_type) (g : α → α → α)
    (hg : LaneWise2 V lane func g) (a b c i w : Int) (m : Mem α) (hw1 : 1 ≤ w)
    (hwW : w ≤ V.width) :
    binary_chunk V a b c func i w m
      = fun p => if c + i ≤ p ∧ p < c + i + w then g (m (a + (p - c))) (m (b + (p - c)))
          else m p := by
  funext p
  simp only [binary_chunk]
  rw [hV.store_mem _ _ _ _ _ hw1 hwW, hV.load_mem _ _ _ hw1 hwW, hV.load_mem _ _ _ hw1 hwW]
  by_cases h : c + i ≤ p ∧ p < c + i + w
  · rw [if_pos h, if_pos h, hg _ _ _ (by omega) (by omega),
      hV.load_lane _ _ _ _ hw1 hwW (by omega) (by omega),
      hV.load_lane _ _ _ _ hw1 hwW (by omega) (by omega)]
    congr 2 <;> ring
  · rw [if_neg h, if_neg h]

/-- The final memory of the binary transform: the `N` elements at `c` are `g` of the
elements that were at `a` and at `b`, and nothing else has changed. -/
theorem binary_transform_written (V : Vec (Mem α) α) (lane : V.value_type → Int → α)
    (hV : V.Exact lane) (func : V.value_type → V.value_type → V.value_type) (g : α → α → α)
    (hg : LaneWise2 V lane func g) (a b c N : Int) (hN : 0 ≤ N)
    (hca : c ≤ a ∨ a + N ≤ c) (hcb : c ≤ b ∨ b + N ≤ c) (m : Mem α) :
    vectorized_binary_transform V a b c N func m
      = written (fun m k => g (m (a + k)) (m (b + k))) c N m := by
  apply vectorized_iter_written V.width V.width_pos _
    (fun m k => g (m (a + k)) (m (b + k))) c N hN
  · intro i w m _ hw1 hwW _
    exact binary_chunk_mem V lane hV func g hg a b c i w m hw1 hwW
  · intro m m1 k e hk0 hkN hek hm
    show g (m1 (a + k)) (m1 (b + k)) = g (m (a + k)) (m (b + k))
    rw [hm (a + k) (by omega), hm (b + k) (by omega)]

theorem written_inside (F : Mem α → Int → α) (y N : Int) (m : Mem α) (i : Int) (h0 : 0 ≤ i)
    (hN : i < N) : written F y N m (y + i) = F m i := by
  have h : y ≤ y + i ∧ y + i < y + N := by omega
  simp only [written, if_pos h]
  congr 1
  ring

theorem written_outside (F : Mem α → Int → α) (y N : Int) (m : Mem α) (a : Int)
    (h : a < y ∨ y + N ≤ a) : written F y N m a = m a := by
  have h1 : ¬ (y ≤ a ∧ a < y + N) := by omega
  simp only [written, if_neg h1]

theorem laneVec_exact (W : Int) (hW : 0 < W) (pad : α) (ops : ScalarOps α) :
    (laneVec W hW pad ops).Exact (laneVec_lane W hW pad ops) where
  load_mem := fun _ _ _ _ _ => rfl
  load_lane := by
    intro p w m j _ _ h0 hj
    have h : 0 ≤ j ∧ j < w := ⟨h0, hj⟩
    simp only [laneVec_lane, laneVec, if_pos h]
  store_mem := fun _ _ _ _ _ _ _ => rfl

theorem laneVec_broadcast (W : Int) (hW : 0 < W) (pad : α) (ops : ScalarOps α) :
    (laneVec W hW pad ops).Broadcast (laneVec_lane W hW pad ops) where
  load_value_mem := fun _ _ => rfl
  load_value_lane := fun _ _ _ _ _ => rfl

/-- The bounds of every call of the closed form, for a size that is not negative. -/
theorem chunks_bounds (W : Int) (hw : 0 < W) (N : Int) (hN : 0 ≤ N) (c : Int × Int)
    (hc : c ∈ chunks W N) : 0 ≤ c.1 ∧ 1 ≤ c.2 ∧ c.2 ≤ W ∧ c.1 + c.2 ≤ N := by
  have hq : 0 ≤ N / W := Int.ediv_nonneg hN hw.le
  have hcast : (((N / W).toNat : Nat) : Int) = N / W := Int.toNat_of_nonneg hq
  have hdiv : N % W + W * (N / W) = N := Int.emod_add_ediv N W
  have hr0 : 0 ≤ N % W := Int.emod_nonneg N hw.ne'
  have hrW : N % W < W := Int.emod_lt_of_pos N hw
  have hqW : (N / W) * W = N - N % W := by linarith
  rw [chunks_of_nonneg W hw N hN, List.mem_append] at hc
  rcases hc with hc | hc
  · simp only [full_chunks, List.mem_map, List.mem_range] at hc
    obtain ⟨k, hk, rfl⟩ := hc
    have hk1 : (k : Int) + 1 ≤ N / W := by omega
    have h1 : ((k : Int) + 1) * W ≤ (N / W) * W := mul_le_mul_of_nonneg_right hk1 hw.le
    have h2 : (0 : Int) ≤ (k : Int) * W := mul_nonneg (Int.natCast_nonneg k) hw.le
    have h3 : ((k : Int) + 1) * W = (k : Int) * W + W := by ring
    refine ⟨h2, by omega, le_rfl, ?_⟩
    show (k : Int) * W + W ≤ N
    omega
  · by_cases hr : N % W = 0
    · simp [hr] at hc
    · rw [if_pos hr, List.mem_singleton] at hc
      subst hc
      have hqW0 : 0 ≤ (N / W) * W := mul_nonneg hq hw.le
      refine ⟨hqW0, by show 1 ≤ N % W; omega, hrW.le, ?_⟩
      show (N / W) * W + N % W ≤ N
      omega

theorem vec4_exact : vec4.Exact lane4 := laneVec_exact 4 (by decide) 0 intOps

theorem vec1_exact : vec1.Exact lane1 := laneVec_exact 1 (by decide) 0 intOps

theorem vec4_broadcast : vec4.Broadcast lane4 := laneVec_broadcast 4 (by decide) 0 intOps

theorem run_unary_traced_log (V : Vec σ α) (x y : Int) (func : V.value_type → V.value_type)
    (cs : List (Int × Int)) (s : σ × List Access) :
    (run_calls (unary_chunk V.traced x y func) cs s).2
      = s.2 ++ cs.flatMap (unary_accesses x y) := by
  induction cs generalizing s with
  | nil => simp [run_calls]
  | cons c cs ih =>
    have h := ih (unary_chunk V.traced x y func c.1 c.2 s)
    simp only [run_calls, List.foldl_cons] at h ⊢
    rw [h]
    simp [unary_chunk, Vec.traced, unary_accesses]

theorem run_binary_traced_log (V : Vec σ α) (a b c : Int)
    (func : V.value_type → V.value_type → V.value_type)
    (cs : List (Int × Int)) (s : σ × List Access) :
    (run_calls (binary_chunk V.traced a b c func) cs s).2
      = s.2 ++ cs.flatMap (binary_accesses a b c) := by
  induction cs generalizing s with
  | nil => simp [run_calls]
  | cons ch cs ih =>
    have h := ih (binary_chunk V.traced a b c func ch.1 ch.2 s)
    simp only [run_calls, List.foldl_cons] at h ⊢
    rw [h]
    simp [binary_chunk, Vec.traced, binary_accesses]

/-- The calls of `load` and `store` of the instrumented unary transform. -/
theorem unary_transform_traced_log (V : Vec σ α) (x y N : Int)
    (func : V.value_type → V.value_type) (s : σ) :
    (vectorized_unary_transform V.traced x y N func (s, [])).2
      = (chunks V.width N).flatMap (unary_accesses x y) := by
  rw [vectorized_unary_transform, vectorized_iter_eq_run_calls, run_unary_traced_log]
  simp [Vec.traced]

/-- The calls of `load` and `store` of the instrumented binary transform. -/
theorem binary_transform_traced_log (V : Vec σ α) (a b c N : Int)
    (func : V.value_type → V.value_type → V.value_type) (s : σ) :
    (vectorized_binary_transform V.traced a b c N func (s, [])).2
      = (chunks V.width N).flatMap (binary_accesses a b c) := by
  rw [vectorized_binary_transform, vectorized_iter_eq_run_calls, run_binary_traced_log]
  simp [Vec.traced]

theorem chunks_zero (W : Int) : chunks W 0 = [] := by
  simp [chunks, full_chunks]

/-- A run of calls that each write only inside their chunk of the buffer at `y` leaves
every address outside the first `N` elements of that buffer as it was. -/
theorem run_calls_frame (step : Int → Int → Mem α → Mem α) (y N : Int)
    (cs : List (Int × Int)) (hb : ∀ c ∈ cs, 0 ≤ c.1 ∧ c.1 + c.2 ≤ N)
    (hstep : ∀ c ∈ cs, ∀ (m : Mem α) (p : Int), (p < y + c.1 ∨ y + c.1 + c.2 ≤ p) →
      step c.1 c.2 m p = m p)
    (m : Mem α) (p : Int) (hp : p < y ∨ y + N ≤ p) : run_calls step cs m p = m p := by
  induction cs generalizing m with
  | nil => simp [run_calls]
  | cons c cs ih =>
    have hc := hb c (List.mem_cons_self c cs)
    have h1 := ih (fun d hd => hb d (List.mem_cons_of_mem c hd))
      (fun d hd => hstep d (List.mem_cons_of_mem c hd)) (step c.1 c.2 m)
    simp only [run_calls, List.foldl_cons] at h1 ⊢
    rw [h1, hstep c (List.mem_cons_self c cs) m p (by omega)]

theorem unary_chunk_frame (V : Vec (Mem α) α) (lane : V.value_type → Int → α)
    (hV : V.Exact lane) (func : V.value_type → V.value_type) (x y i w : Int) (m : Mem α)
    (hw1 : 1 ≤ w) (hwW : w ≤ V.width) (p : Int) (hp : p < y + i ∨ y + i + w ≤ p) :
    unary_chunk V x y func i w m p = m p := by
  have h : ¬ (y + i ≤ p ∧ p < y + i + w) := by omega
  simp only [unary_chunk]
  rw [hV.store_mem _ _ _ _ _ hw1 hwW, if_neg h, hV.load_mem _ _ _ hw1 hwW]

theorem binary_chunk_frame (V : Vec (Mem α) α) (lane : V.value_type → Int → α)
    (hV : V.Exact lane) (func : V.value_type → V.value_type → V.value_type)
    (a b c i w : Int) (m : Mem α)
    (hw1 : 1 ≤ w) (hwW : w ≤ V.width) (p : Int) (hp : p < c + i ∨ c + i + w ≤ p) :
    binary_chunk V a b c func i w m p = m p := by
  have h : ¬ (c + i ≤ p ∧ p < c + i + w) := by omega
  simp only [binary_chunk]
  rw [hV.store_mem _ _ _ _ _ hw1 hwW, if_neg h, hV.load_mem _ _ _ hw1 hwW,
    hV.load_mem _ _ _ hw1 hwW]

/-- The unary transform changes nothing outside the first `N` elements at `y`, whatever
the primitive and however the buffers lie. -/
theorem unary_transform_frame (V : Vec (Mem α) α) (lane : V.value_type → Int → α)
    (hV : V.Exact lane) (func : V.value_type → V.value_type) (x y N : Int) (hN : 0 ≤ N)
    (m : Mem α) (p : Int) (hp : p < y ∨ y + N ≤ p) :
    vectorized_unary_transform V x y N func m p = m p := by
  rw [vectorized_unary_transform, vectorized_iter_eq_run_calls]
  apply run_calls_frame _ y N _ _ _ m p hp
  · intro c hc
    obtain ⟨h0, _, _, h3⟩ := chunks_bounds V.width V.width_pos N hN c hc
    exact ⟨h0, h3⟩
  · intro c hc m1 q hq
    obtain ⟨_, h1, h2, _⟩ := chunks_bounds V.width V.width_pos N hN c hc
    exact unary_chunk_frame V lane hV func x y c.1 c.2 m1 h1 h2 q hq

/-- The binary transform changes nothing outside the first `N` elements at `c`. -/
theorem binary_transform_frame (V : Vec (Mem α) α) (lane : V.value_type → Int → α)
    (hV : V.Exact lane) (func : V.value_type → V.value_type → V.value_type)
    (a b c N : Int) (hN : 0 ≤ N) (m : Mem α) (p : Int) (hp : p < c ∨ c + N ≤ p) :
    vectorized_binary_transform V a b c N func m p = m p := by
  rw [vectorized_binary_transform, vectorized_iter_eq_run_calls]
  apply run_calls_frame _ c N _ _ _ m p hp
  · intro ch hc
    obtain ⟨h0, _, _, h3⟩ := chunks_bounds V.width V.width_pos N hN ch hc
    exact ⟨h0, h3⟩
  · intro ch hc m1 q hq
    obtain ⟨_, h1, h2, _⟩ := chunks_bounds V.width V.width_pos N hN ch hc
    exact binary_chunk_frame V lane hV func a b c ch.1 ch.2 m1 h1 h2 q hq

/-- The first `n` steps of the scalar reference of a unary operation. -/
theorem scalar_unary_reference_steps (f : α → α) (x y N : Int) (hxy : y ≤ x ∨ x + N ≤ y)
    (m : Mem α) (n : Nat) (hn : (n : Int) ≤ N) :
    (List.range n).foldl
      (fun m (i : Nat) => Function.update m (y + (i : Int)) (f (m (x + (i : Int))))) m
      = written (fun m k => f (m (x + k))) y (n : Int) m := by
  induction n with
  | zero => simp [written_zero]
  | succ n ih =>
    rw [List.range_succ, List.foldl_append, ih (by push_cast at hn; omega)]
    have e : ((n + 1 : Nat) : Int) = (n : Int) + 1 := by push_cast; ring
    rw [e]
    apply written_step (fun m k => f (m (x + k))) y N _ m (n : Int) 1
      (Int.natCast_nonneg n) le_rfl (by omega)
    · simp only [List.foldl_cons, List.foldl_nil]
      funext p
      by_cases hp : p = y + (n : Int)
      · have h : y + (n : Int) ≤ p ∧ p < y + (n : Int) + 1 := by omega
        rw [if_pos h, hp, Function.update_same]
        congr 2
        ring
      · have h : ¬ (y + (n : Int) ≤ p ∧ p < y + (n : Int) + 1) := by omega
        rw [if_neg h, Function.update_noteq hp]
    · intro m0 m1 k e0 hk0 hkN hek hm
      show f (m1 (x + k)) = f (m0 (x + k))
      rw [hm (x + k) (by omega)]

/-- The scalar reference of a unary operation writes `f` of the old input. -/
theorem scalar_unary_reference_written (f : α → α) (x y N : Int) (hN : 0 ≤ N)
    (hxy : y ≤ x ∨ x + N ≤ y) (m : Mem α) :
    scalar_unary_reference f x y N m = written (fun m k => f (m (x + k))) y N m := by
  have h := scalar_unary_reference_steps f x y N hxy m N.toNat
    (by rw [Int.toNat_of_nonneg hN])
  rw [Int.toNat_of_nonneg hN] at h
  exact h

/-- The first `n` steps of the scalar reference of a binary operation. -/
theorem scalar_binary_reference_steps (g : α → α → α) (a b c N : Int)
    (hca : c ≤ a ∨ a + N ≤ c) (hcb : c ≤ b ∨ b + N ≤ c)
    (m : Mem α) (n : Nat) (hn : (n : Int) ≤ N) :
    (List.range n).foldl
      (fun m (i : Nat) =>
        Function.update m (c + (i : Int)) (g (m (a + (i : Int))) (m (b + (i : Int))))) m
      = written (fun m k => g (m (a + k)) (m (b + k))) c (n : Int) m := by
  induction n with
  | zero => simp [written_zero]
  | succ n ih =>
    rw [List.range_succ, List.foldl_append, ih (by push_cast at hn; omega)]
    have e : ((n + 1 : Nat) : Int) = (n : Int) + 1 := by push_cast; ring
    rw [e]
    apply written_step (fun m k => g (m (a + k)) (m (b + k))) c N _ m (n : Int) 1
      (Int.natCast_nonneg n) le_rfl (by omega)
    · simp only [List.foldl_cons, List.foldl_nil]
      funext p
      by_cases hp : p = c + (n : Int)
      · have h : c + (n : Int) ≤ p ∧ p < c + (n : Int) + 1 := by omega
        rw [if_pos h, hp, Function.update_same]
        congr 2 <;> congr 1 <;> ring
      · have h : ¬ (c + (n : Int) ≤ p ∧ p < c + (n : Int) + 1) := by omega
        rw [if_neg h, Function.update_noteq hp]
    · intro m0 m1 k e0 hk0 hkN hek hm
      show g (m1 (a + k)) (m1 (b + k)) = g (m0 (a + k)) (m0 (b + k))
      rw [hm (a + k) (by omega), hm (b + k) (by omega)]

/-- The scalar reference of a binary operation writes `g` of the old inputs. -/
theorem scalar_binary_reference_written (g : α → α → α) (a b c N : Int) (hN : 0 ≤ N)
    (hca : c ≤ a ∨ a + N ≤ c) (hcb : c ≤ b ∨ b + N ≤ c) (m : Mem α) :
    scalar_binary_reference g a b c N m
      = written (fun m k => g (m (a + k)) (m (b + k))) c N m := by
  have h := scalar_binary_reference_steps g a b c N hca hcb m N.toNat
    (by rw [Int.toNat_of_nonneg hN])
  rw [Int.toNat_of_nonneg hN] at h
  exact h

/-- A scalar-broadcast form: the unary transform with the primitive `v ↦ prim(v, vec_a)`,
`vec_a` being the broadcast of `a`, writes `g(x[i], a)`. -/
theorem broadcast_transform_written (V : Vec (Mem α) α) (lane : V.value_type → Int → α)
    (hV : V.Exact lane) (hB : V.Broadcast lane)
    (prim : V.value_type → V.value_type → V.value_type) (g : α → α → α)
    (hg : LaneWise2 V lane prim g) (s : α) (x y N : Int) (hN : 0 ≤ N)
    (hxy : y ≤ x ∨ x + N ≤ y) (m : Mem α) :
    vectorized_unary_transform V x y N (fun v => prim v (V.load_value s m).1)
        (V.load_value s m).2
      = written (fun m k => g (m (x + k)) s) y N m := by
  rw [hB.load_value_mem]
  apply unary_transform_written V lane hV _ (fun e => g e s) _ x y N hN hxy m
  intro v j h0 hj
  rw [hg _ _ _ h0 hj, hB.load_value_lane _ _ _ h0 hj]

/-- The binary transform on `x` and a buffer `b` holding `N` copies of `s` writes
`g(x[i], s)`. -/
theorem binary_const_written (V : Vec (Mem α) α) (lane : V.value_type → Int → α)
    (hV : V.Exact lane)
    (prim : V.value_type → V.value_type → V.value_type) (g : α → α → α)
    (hg : LaneWise2 V lane prim g) (s : α) (x b y N : Int) (hN : 0 ≤ N)
    (hxy : y ≤ x ∨ x + N ≤ y) (hby : y ≤ b ∨ b + N ≤ y) (m : Mem α)
    (hb : ∀ i, 0 ≤ i → i < N → m (b + i) = s) :
    vectorized_binary_transform V x b y N prim m
      = written (fun m k => g (m (x + k)) s) y N m := by
  rw [binary_transform_written V lane hV prim g hg x b y N hN hxy hby m]
  funext p
  by_cases h : y ≤ p ∧ p < y + N
  · simp only [written, if_pos h]
    rw [hb (p - y) (by omega) (by omega)]
  · simp only [written, if_neg h]

/-- Truncating quotient and remainder of a negative size: the quotient is not positive
and the remainder lies in `(-W, 0]`. -/
theorem tdiv_tmod_of_neg (W : Int) (hw : 0 < W) (N : Int) (hN : N < 0) :
    Int.tdiv N W ≤ 0 ∧ Int.tmod N W ≤ 0 ∧ -W < Int.tmod N W := by
  have e : N = -(-N) := by ring
  have hq : 0 ≤ Int.tdiv (-N) W := Int.tdiv_nonneg (by omega) hw.le
  have hr0 : 0 ≤ Int.tmod (-N) W := Int.tmod_nonneg W (by omega)
  have hrW : Int.tmod (-N) W < W := Int.tmod_lt_of_pos (-N) hw
  have hd : Int.tdiv N W = -Int.tdiv (-N) W := by
    conv_lhs => rw [e, Int.neg_tdiv]
  have hm : Int.tmod N W = -Int.tmod (-N) W := by
    rw [Int.tmod_def, Int.tmod_def, hd]
    ring
  refine ⟨by omega, by omega, by omega⟩

/-- The calls of the closed form for a negative size: no full chunk, and the remainder
call when the remainder is not zero. -/
theorem chunks_of_neg (W : Int) (hw : 0 < W) (N : Int) (hN : N < 0) :
    chunks W N = if Int.tmod N W = 0 then [] else [(N - Int.tmod N W, Int.tmod N W)] := by
  have hq := (tdiv_tmod_of_neg W hw N hN).1
  have h0 : (Int.tdiv N W).toNat = 0 := Int.toNat_eq_zero.mpr hq
  rw [chunks, h0]
  by_cases hr : Int.tmod N W = 0 <;> simp [hr, full_chunks]

/-- The calls of the memory operations of a scalar-broadcast form on the instrumented
vector class: the broadcast, then the loads and stores of the chunks. -/
theorem broadcast_transform_traced_log (V : Vec σ α)
    (prim : V.value_type → V.value_type → V.value_type) (a : α) (x y N : Int) (s : σ) :
    (vectorized_unary_transform V.traced x y N
        (fun v => prim v (V.traced.load_value a (s, [])).1)
        (V.traced.load_value a (s, [])).2).2
      = Access.broadcast :: (iter_calls V.width V.width_pos N).flatMap (unary_accesses x y) := by
  rw [vectorized_unary_transform, vectorized_iter_eq_run_calls, run_unary_traced_log,
    iter_calls_eq_chunks]
  simp [Vec.traced]

/-- The loads and stores of the chunks contain no broadcast. -/
theorem count_broadcast_unary_accesses (x y : Int) (cs : List (Int × Int)) :
    List.count Access.broadcast (cs.flatMap (unary_accesses x y)) = 0 := by
  rw [List.count_eq_zero]
  intro h
  rw [List.mem_flatMap] at h
  obtain ⟨c, _, hc⟩ := h
  simp [unary_accesses] at hc

/-- A scalar-broadcast form is the run of the chunks with one and the same primitive,
whose second operand is the register that the broadcast returned. -/
theorem broadcast_transform_run_calls (V : Vec σ α)
    (prim : V.value_type → V.value_type → V.value_type) (a : α) (x y N : Int) (s : σ) :
    vectorized_unary_transform V x y N (fun v => prim v (V.load_value a s).1)
        (V.load_value a s).2
      = run_calls (unary_chunk V x y (fun v => prim v (V.load_value a s).1))
          (iter_calls V.width V.width_pos N) (V.load_value a s).2 := by
  rw [vectorized_unary_transform, vectorized_iter_eq_run_calls, iter_calls_eq_chunks]

/-- The calls of the closed form, for a size that is not negative, are laid end to end
at the least: each call ends where a later one starts, or before. -/
theorem chunks_sorted (W : Int) (hw : 0 < W) (N : Int) (hN : 0 ≤ N) :
    List.Pairwise (fun c d : Int × Int => c.1 + c.2 ≤ d.1) (chunks W N) := by
  have hq : 0 ≤ N / W := Int.ediv_nonneg hN hw.le
  have hcast : (((N / W).toNat : Nat) : Int) = N / W := Int.toNat_of_nonneg hq
  rw [chunks_of_nonneg W hw N hN, List.pairwise_append]
  refine ⟨?_, ?_, ?_⟩
  · rw [full_chunks, List.pairwise_map]
    refine List.Pairwise.imp ?_ (List.pairwise_lt_range _)
    intro j k hjk
    show (j : Int) * W + W ≤ (k : Int) * W
    have h1 : (j : Int) + 1 ≤ (k : Int) := by omega
    have h2 : ((j : Int) + 1) * W ≤ (k : Int) * W := mul_le_mul_of_nonneg_right h1 hw.le
    linarith
  · by_cases hr : N % W = 0 <;> simp [hr]
  · intro c hc d hd
    by_cases hr : N % W = 0
    · simp [hr] at hd
    · rw [if_pos hr, List.mem_singleton] at hd
      simp only [full_chunks, List.mem_map, List.mem_range] at hc
      obtain ⟨k, hk, rfl⟩ := hc
      subst hd
      show (k : Int) * W + W ≤ (N / W) * W
      have h1 : (k : Int) + 1 ≤ N / W := by omega
      have h2 : ((k : Int) + 1) * W ≤ (N / W) * W := mul_le_mul_of_nonneg_right h1 hw.le
      linarith

/-- Every index below a size that is not negative lies in a call of the closed form. -/
theorem chunks_cover (W : Int) (hw : 0 < W) (N : Int) (k : Int) (hk0 : 0 ≤ k)
    (hkN : k < N) : ∃ c ∈ chunks W N, c.1 ≤ k ∧ k < c.1 + c.2 := by
  have hN : 0 ≤ N := by omega
  have hq : 0 ≤ N / W := Int.ediv_nonneg hN hw.le
  have hcast : (((N / W).toNat : Nat) : Int) = N / W := Int.toNat_of_nonneg hq
  have hdivN : N % W + W * (N / W) = N := Int.emod_add_ediv N W
  have hrN0 : 0 ≤ N % W := Int.emod_nonneg N hw.ne'
  have hj : 0 ≤ k / W := Int.ediv_nonneg hk0 hw.le
  have hdivk : k % W + W * (k / W) = k := Int.emod_add_ediv k W
  have hrk0 : 0 ≤ k % W := Int.emod_nonneg k hw.ne'
  have hrkW : k % W < W := Int.emod_lt_of_pos k hw
  have hjcast : (((k / W).toNat : Nat) : Int) = k / W := Int.toNat_of_nonneg hj
  have hcomm : ∀ t : Int, t * W = W * t := fun t => mul_comm t W
  rw [chunks_of_nonneg W hw N hN]
  by_cases hlt : k / W < N / W
  · refine ⟨((k / W) * W, W), ?_, ?_, ?_⟩
    · apply List.mem_append_left
      simp only [full_chunks, List.mem_map, List.mem_range]
      exact ⟨(k / W).toNat, by omega, by rw [hjcast]⟩
    · show (k / W) * W ≤ k
      rw [hcomm]
      omega
    · show k < (k / W) * W + W
      rw [hcomm]
      omega
  · have hle : k / W ≤ N / W := Int.ediv_le_ediv hw hkN.le
    have heq : k / W = N / W := by omega
    have hr : N % W ≠ 0 := by
      intro h0
      rw [heq] at hdivk
      omega
    refine ⟨((N / W) * W, N % W), ?_, ?_, ?_⟩
    · apply List.mem_append_right
      rw [if_pos hr]
      exact List.mem_singleton_self _
    · show (N / W) * W ≤ k
      rw [hcomm, ← heq]
      omega
    · show k < (N / W) * W + N % W
      rw [hcomm]
      omega

/-- In a list whose members are pairwise not both selected and one of which is selected,
exactly one is. -/
theorem countP_eq_one_of_pairwise {β : Type} (p : β → Bool) (l : List β)
    (hpw : List.Pairwise (fun c d => ¬ (p c = true ∧ p d = true)) l)
    (hex : ∃ c ∈ l, p c = true) : List.countP p l = 1 := by
  induction l with
  | nil =>
    obtain ⟨c, hc, _⟩ := hex
    cases hc
  | cons c cs ih =>
    rw [List.pairwise_cons] at hpw
    by_cases hc : p c = true
    · have h0 : List.countP p cs = 0 := by
        rw [List.countP_eq_zero]
        intro d hd hpd
        exact hpw.1 d hd ⟨hc, hpd⟩
      rw [List.countP_cons_of_pos p cs hc, h0]
    · rw [List.countP_cons_of_neg p cs hc]
      apply ih hpw.2
      obtain ⟨d, hd, hpd⟩ := hex
      rcases List.mem_cons.mp hd with h | h
      · exact absurd (h ▸ hpd) hc
      · exact ⟨d, h, hpd⟩

theorem full_chunks_widths (W : Int) (n : Nat) :
    ((full_chunks W n).map Prod.snd).sum = (n : Int) * W := by
  induction n with
  | zero => simp [full_chunks]
  | succ n ih =>
    rw [full_chunks_succ, List.map_append, List.sum_append, ih]
    simp only [List.map_cons, List.map_nil, List.sum_cons, List.sum_nil]
    push_cast
    ring

theorem full_chunks_length (W : Int) (n : Nat) : (full_chunks W n).length = n := by
  simp [full_chunks]

/-- The quotient rounded up, from the quotient and the remainder. -/
theorem ceil_div_eq (W : Int) (hw : 0 < W) (N : Int) :
    (N + W - 1) / W = N / W + (if N % W = 0 then 0 else 1)
    ∧ ⌈(N : ℚ) / (W : ℚ)⌉ = N / W + (if N % W = 0 then 0 else 1) := by
  have hdiv : N % W + W * (N / W) = N := Int.emod_add_ediv N W
  have hr0 : 0 ≤ N % W := Int.emod_nonneg N hw.ne'
  have hrW : N % W < W := Int.emod_lt_of_pos N hw
  have hWq : (0 : ℚ) < (W : ℚ) := by exact_mod_cast hw
  constructor
  · by_cases hr : N % W = 0
    · have e : N + W - 1 = (W - 1) + (N / W) * W := by linarith
      rw [if_pos hr, e, Int.add_mul_ediv_right _ _ hw.ne',
        Int.ediv_eq_zero_of_lt (by omega) (by omega)]
      ring
    · have e : N + W - 1 = (N % W - 1) + (N / W + 1) * W := by linarith
      rw [if_neg hr, e, Int.add_mul_ediv_right _ _ hw.ne',
        Int.ediv_eq_zero_of_lt (by omega) (by omega)]
      ring
  · rw [Int.ceil_eq_iff]
    have hNq : (N : ℚ) = ((N % W : Int) : ℚ) + (W : ℚ) * ((N / W : Int) : ℚ) := by
      exact_mod_cast hdiv.symm
    have hr0q : (0 : ℚ) ≤ ((N % W : Int) : ℚ) := by exact_mod_cast hr0
    have hrWq : ((N % W : Int) : ℚ) < (W : ℚ) := by exact_mod_cast hrW
    by_cases hr : N % W = 0
    · have hrq : ((N % W : Int) : ℚ) = 0 := by exact_mod_cast hr
      rw [if_pos hr]
      constructor
      · rw [lt_div_iff₀ hWq]
        push_cast
        nlinarith
      · rw [div_le_iff₀ hWq]
        push_cast
        nlinarith
    · have hr1 : (1 : ℚ) ≤ ((N % W : Int) : ℚ) := by
        have : 1 ≤ N % W := by omega
        exact_mod_cast this
      rw [if_neg hr]
      constructor
      · rw [lt_div_iff₀ hWq]
        push_cast
        nlinarith
      · rw [div_le_iff₀ hWq]
        push_cast
        nlinarith

/-- In the log of the unary transform, no load reads a range that an earlier store has
touched, when the output starts at or before the input or after its end. -/
theorem unary_log_clear (W : Int) (hw : 0 < W) (x y N : Int) (hN : 0 ≤ N)
    (hxy : y ≤ x ∨ x + N ≤ y) :
    List.Pairwise store_clear_of_load ((chunks W N).flatMap (unary_accesses x y)) := by
  have hb := chunks_bounds W hw N hN
  rw [List.pairwise_flatMap]
  constructor
  · intro c _
    simp [unary_accesses, store_clear_of_load]
  · refine List.Pairwise.imp_of_mem ?_ (chunks_sorted W hw N hN)
    intro c d hc hd hcd e1 he1 e2 he2
    obtain ⟨hc0, _, _, _⟩ := hb c hc
    obtain ⟨_, _, _, hdN⟩ := hb d hd
    simp only [unary_accesses, List.mem_cons, List.mem_singleton, List.not_mem_nil,
      or_false] at he1 he2
    rcases he1 with rfl | rfl <;> rcases he2 with rfl | rfl <;>
      simp only [store_clear_of_load]
    omega

/-- In the log of the binary transform, no load reads a range that an earlier store has
touched, when the output starts at or before each input or after its end. -/
theorem binary_log_clear (W : Int) (hw : 0 < W) (a b c N : Int) (hN : 0 ≤ N)
    (hca : c ≤ a ∨ a + N ≤ c) (hcb : c ≤ b ∨ b + N ≤ c) :
    List.Pairwise store_clear_of_load ((chunks W N).flatMap (binary_accesses a b c)) := by
  have hb := chunks_bounds W hw N hN
  rw [List.pairwise_flatMap]
  constructor
  · intro ch _
    simp [binary_accesses, store_clear_of_load]
  · refine List.Pairwise.imp_of_mem ?_ (chunks_sorted W hw N hN)
    intro ch dh hc hd hcd e1 he1 e2 he2
    obtain ⟨hc0, _, _, _⟩ := hb ch hc
    obtain ⟨_, _, _, hdN⟩ := hb dh hd
    simp only [binary_accesses, List.mem_cons, List.mem_singleton, List.not_mem_nil,
      or_false] at he1 he2
    rcases he1 with rfl | rfl | rfl <;> rcases he2 with rfl | rfl | rfl <;>
      simp only [store_clear_of_load] <;> omega

/-- The calls at width 4 and length 10: two full chunks and a remainder of 2. -/
theorem chunks_vec4_10 : chunks vec4.width 10 = [(0, 4), (4, 4), (8, 2)] := by decide

/-- The calls at width 1 and length 10: ten chunks of one element. -/
theorem chunks_vec1_10 :
    chunks vec1.width 10
      = [(0, 1), (1, 1), (2, 1), (3, 1), (4, 1), (5, 1), (6, 1), (7, 1), (8, 1), (9, 1)] := by
  decide

/-! ## The kernels: the claims -/

/-- C1, as stated, fails when the output buffer starts inside the input buffer: at width
4 and length 10, with the input at address 0 and the output at address 2, the primitive
that adds 7 in every lane leaves `y[4] = 21` while `f(x[4]) = 20` for the `x[4] = 13` of
before the call (the second chunk loads `x[4]` after the first chunk has stored `y[2]`
there); and `y[2] = 14` while `f` of the `x[2] = 8` of after the call is 15. -/
theorem unary_transform_overlap_counterexample :
    vec4.Exact lane4
    ∧ LaneWise vec4 lane4 (fun v j => v j + 7) (fun e => e + 7)
    ∧ vectorized_unary_transform vec4 0 2 10 (fun v j => v j + 7) mem0 (2 + 4) = 21
    ∧ mem0 (0 + 4) + 7 = 20
    ∧ vectorized_unary_transform vec4 0 2 10 (fun v j => v j + 7) mem0 (2 + 2) = 14
    ∧ vectorized_unary_transform vec4 0 2 10 (fun v j => v j + 7) mem0 (0 + 2) + 7 = 15 := by
  refine ⟨vec4_exact, fun _ _ _ _ => rfl, ?_, by decide, ?_, ?_⟩ <;>
    rw [vectorized_unary_transform, vectorized_iter_eq_run_calls, chunks_vec4_10] <;>
    decide

/-- C1, amended: under the load and store assumption, for a length `N ≥ 0` and an output range
that starts at or before the input range or after its end (any two separate buffers
do), the unary transform leaves `y[i] = f(x[i])` for every `0 ≤ i < N`, for every
primitive that applies `f` in every lane; so do `rcp`, `exp`, `log`, `sin` and `cos`
with the scalar function of their primitive. -/
theorem unary_transform_correct (V : Vec (Mem α) α) (lane : V.value_type → Int → α)
    (hV : V.Exact lane) (x y N : Int) (hN : 0 ≤ N) (hxy : y ≤ x ∨ x + N ≤ y) (m : Mem α) :
    (∀ (func : V.value_type → V.value_type) (f : α → α), LaneWise V lane func f →
      ∀ i, 0 ≤ i → i < N → vectorized_unary_transform V x y N func m (y + i) = f (m (x + i)))
    ∧ (∀ f, LaneWise V lane V.rcp f → ∀ i, 0 ≤ i → i < N → rcp V x y N m (y + i) = f (m (x + i)))
    ∧ (∀ f, LaneWise V lane V.exp f → ∀ i, 0 ≤ i → i < N → exp V x y N m (y + i) = f (m (x + i)))
    ∧ (∀ f, LaneWise V lane V.log f → ∀ i, 0 ≤ i → i < N → log V x y N m (y + i) = f (m (x + i)))
    ∧ (∀ f, LaneWise V lane V.sin f → ∀ i, 0 ≤ i → i < N → sin V x y N m (y + i) = f (m (x + i)))
    ∧ (∀ f, LaneWise V lane V.cos f → ∀ i, 0 ≤ i → i < N →
        cos V x y N m (y + i) = f (m (x + i))) := by
  have key : ∀ (func : V.value_type → V.value_type) (f : α → α), LaneWise V lane func f →
      ∀ i, 0 ≤ i → i < N →
        vectorized_unary_transform V x y N func m (y + i) = f (m (x + i)) := by
    intro func f hf i h0 hi
    rw [unary_transform_written V lane hV func f hf x y N hN hxy m, written_inside _ _ _ _ _ h0 hi]
  exact ⟨key, fun f hf => key V.rcp f hf, fun f hf => key V.exp f hf,
    fun f hf => key V.log f hf, fun f hf => key V.sin f hf, fun f hf => key V.cos f hf⟩

/-- C1 at width 4, length 10 (two full chunks and a remainder of 2), input at address 0
and output at address 100: the last element of `rcp`. -/
theorem unary_transform_correct_witness :
    vec4.Exact lane4 ∧ (0 : Int) ≤ 10 ∧ ((100 : Int) ≤ 0 ∨ (0 : Int) + 10 ≤ 100)
    ∧ rcp vec4 0 100 10 mem0 (100 + 9) = intOps.rcp (mem0 (0 + 9)) :=
  ⟨vec4_exact, by decide, by decide,
    (unary_transform_correct vec4 lane4 vec4_exact 0 100 10 (by decide) (by decide) mem0).2.1
      intOps.rcp (fun _ _ _ _ => rfl) 9 (by decide) (by decide)⟩

/-- C2, as stated, fails when the output buffer starts inside an input buffer: at width 4
and length 10, with `a` at address 0, `b` at address 50 and `c` at address 2, `sub`
leaves `c[4] = -313` while `a[4] - b[4] = -150` for the elements of before the call. -/
theorem binary_transform_overlap_counterexample :
    vec4.Exact lane4
    ∧ LaneWise2 vec4 lane4 vec4.sub intOps.sub
    ∧ sub vec4 0 50 2 10 mem0 (2 + 4) = -313
    ∧ intOps.sub (mem0 (0 + 4)) (mem0 (50 + 4)) = -150 := by
  refine ⟨vec4_exact, fun _ _ _ _ _ => rfl, ?_, by decide⟩
  rw [sub, vectorized_binary_transform, vectorized_iter_eq_run_calls, chunks_vec4_10]
  decide

/-- C2, amended: under the load and store assumption, for a length `N ≥ 0` and an output range
that starts at or before each input range or after its end, the binary transform leaves
`c[i] = g(a[i], b[i])` for every `0 ≤ i < N`, the element of `a` as first operand, for
every primitive that applies `g` in every lane; so do the pointer forms of `add`, `sub`,
`mul`, `max` and `min`. -/
theorem binary_transform_correct (V : Vec (Mem α) α) (lane : V.value_type → Int → α)
    (hV : V.Exact lane) (a b c N : Int) (hN : 0 ≤ N)
    (hca : c ≤ a ∨ a + N ≤ c) (hcb : c ≤ b ∨ b + N ≤ c) (m : Mem α) :
    (∀ (func : V.value_type → V.value_type → V.value_type) (g : α → α → α),
      LaneWise2 V lane func g → ∀ i, 0 ≤ i → i < N →
        vectorized_binary_transform V a b c N func m (c + i) = g (m (a + i)) (m (b + i)))
    ∧ (∀ g, LaneWise2 V lane V.add g → ∀ i, 0 ≤ i → i < N →
        add V a b c N m (c + i) = g (m (a + i)) (m (b + i)))
    ∧ (∀ g, LaneWise2 V lane V.sub g → ∀ i, 0 ≤ i → i < N →
        sub V a b c N m (c + i) = g (m (a + i)) (m (b + i)))
    ∧ (∀ g, LaneWise2 V lane V.mul g → ∀ i, 0 ≤ i → i < N →
        mul V a b c N m (c + i) = g (m (a + i)) (m (b + i)))
    ∧ (∀ g, LaneWise2 V lane V.max g → ∀ i, 0 ≤ i → i < N →
        max V a b c N m (c + i) = g (m (a + i)) (m (b + i)))
    ∧ (∀ g, LaneWise2 V lane V.min g → ∀ i, 0 ≤ i → i < N →
        min V a b c N m (c + i) = g (m (a + i)) (m (b + i))) := by
  have key : ∀ (func : V.value_type → V.value_type → V.value_type) (g : α → α → α),
      LaneWise2 V lane func g → ∀ i, 0 ≤ i → i < N →
        vectorized_binary_transform V a b c N func m (c + i) = g (m (a + i)) (m (b + i)) := by
    intro func g hg i h0 hi
    rw [binary_transform_written V lane hV func g hg a b c N hN hca hcb m,
      written_inside _ _ _ _ _ h0 hi]
  exact ⟨key, fun g hg => key V.add g hg, fun g hg => key V.sub g hg,
    fun g hg => key V.mul g hg, fun g hg => key V.max g hg, fun g hg => key V.min g hg⟩

/-- C2 at width 4, length 10, inputs at addresses 0 and 50 and output at address 100:
the last element of `sub` is `a[9] - b[9]`, in this order. -/
theorem binary_transform_correct_witness :
    vec4.Exact lane4 ∧ (0 : Int) ≤ 10 ∧ ((100 : Int) ≤ 0 ∨ (0 : Int) + 10 ≤ 100)
    ∧ ((100 : Int) ≤ 50 ∨ (50 : Int) + 10 ≤ 100)
    ∧ sub vec4 0 50 100 10 mem0 (100 + 9) = mem0 (0 + 9) - mem0 (50 + 9) :=
  ⟨vec4_exact, by decide, by decide, by decide,
    (binary_transform_correct vec4 lane4 vec4_exact 0 50 100 10 (by decide) (by decide)
      (by decide) mem0).2.2.1 intOps.sub (fun _ _ _ _ _ => rfl) 9 (by decide) (by decide)⟩

/-- C3: for a length `N ≥ 0`, every call `func(i, width)` of `vectorized_iter<W>(N, func)`
has `0 ≤ i`, `1 ≤ width ≤ W` and `i + width ≤ N`; every `load` and `store` that the
instrumented unary and binary transforms issue is a `load(x + i, w)` or `store(y + i, w)`
(for the binary one a `load` at `a + i` or `b + i`, or a `store` at `c + i`) with
`0 ≤ i`, `1 ≤ w` and `i + w ≤ N`, that is, inside the first `N` elements of its buffer;
for `N = 0` there is no call and no access. -/
theorem vectorized_iter_in_bounds (W : Int) (hw : 0 < W) (N : Int) (hN : 0 ≤ N) :
    (∀ c ∈ iter_calls W hw N, 0 ≤ c.1 ∧ 1 ≤ c.2 ∧ c.2 ≤ W ∧ c.1 + c.2 ≤ N)
    ∧ (∀ (σ α : Type) (V : Vec σ α) (x y : Int) (func : V.value_type → V.value_type) (s : σ),
        ∀ e ∈ (vectorized_unary_transform V.traced x y N func (s, [])).2,
          ∃ i w, 0 ≤ i ∧ 1 ≤ w ∧ i + w ≤ N ∧
            (e = Access.load (x + i) w ∨ e = Access.store (y + i) w))
    ∧ (∀ (σ α : Type) (V : Vec σ α) (a b c : Int)
        (func : V.value_type → V.value_type → V.value_type) (s : σ),
        ∀ e ∈ (vectorized_binary_transform V.traced a b c N func (s, [])).2,
          ∃ i w, 0 ≤ i ∧ 1 ≤ w ∧ i + w ≤ N ∧
            (e = Access.load (a + i) w ∨ e = Access.load (b + i) w
              ∨ e = Access.store (c + i) w))
    ∧ iter_calls W hw 0 = []
    ∧ (∀ (σ α : Type) (V : Vec σ α) (x y : Int) (func : V.value_type → V.value_type) (s : σ),
        (vectorized_unary_transform V.traced x y 0 func (s, [])).2 = [])
    ∧ (∀ (σ α : Type) (V : Vec σ α) (a b c : Int)
        (func : V.value_type → V.value_type → V.value_type) (s : σ),
        (vectorized_binary_transform V.traced a b c 0 func (s, [])).2 = []) := by
  refine ⟨?_, ?_, ?_, ?_, ?_, ?_⟩
  · intro c hc
    rw [iter_calls_eq_chunks] at hc
    exact chunks_bounds W hw N hN c hc
  · intro σ α V x y func s e he
    rw [unary_transform_traced_log, List.mem_flatMap] at he
    obtain ⟨c, hc, hec⟩ := he
    obtain ⟨h0, h1, _, h3⟩ := chunks_bounds V.width V.width_pos N hN c hc
    refine ⟨c.1, c.2, h0, h1, h3, ?_⟩
    simpa [unary_accesses] using hec
  · intro σ α V a b c func s e he
    rw [binary_transform_traced_log, List.mem_flatMap] at he
    obtain ⟨ch, hc, hec⟩ := he
    obtain ⟨h0, h1, _, h3⟩ := chunks_bounds V.width V.width_pos N hN ch hc
    refine ⟨ch.1, ch.2, h0, h1, h3, ?_⟩
    simpa [binary_accesses] using hec
  · rw [iter_calls_eq_chunks, chunks_zero]
  · intro σ α V x y func s
    rw [unary_transform_traced_log, chunks_zero, List.flatMap_nil]
  · intro σ α V a b c func s
    rw [binary_transform_traced_log, chunks_zero, List.flatMap_nil]

/-- C3 at width 4 and length 10: the calls are in bounds. -/
theorem vectorized_iter_in_bounds_witness :
    (0 : Int) ≤ 10 ∧
    (∀ c ∈ iter_calls 4 (by decide) 10, 0 ≤ c.1 ∧ 1 ≤ c.2 ∧ c.2 ≤ 4 ∧ c.1 + c.2 ≤ 10) :=
  ⟨by decide, (vectorized_iter_in_bounds 4 (by decide) 10 (by decide)).1⟩

/-- C4, as stated, fails when the output buffer starts inside the input buffer: with the
input at address 0, the output at address 2 and length 10, the primitive that adds 7 in
every lane leaves `y[2] = 14` at width 4 and `y[2] = 15` at width 1, which is also what
the scalar element-by-element reference leaves. -/
theorem transforms_width_counterexample :
    vec4.Exact lane4 ∧ vec1.Exact lane1
    ∧ LaneWise vec4 lane4 (fun v j => v j + 7) (fun e => e + 7)
    ∧ LaneWise vec1 lane1 (fun v j => v j + 7) (fun e => e + 7)
    ∧ vectorized_unary_transform vec4 0 2 10 (fun v j => v j + 7) mem0 (2 + 2) = 14
    ∧ vectorized_unary_transform vec1 0 2 10 (fun v j => v j + 7) mem0 (2 + 2) = 15
    ∧ scalar_unary_reference (fun e => e + 7) 0 2 10 mem0 (2 + 2) = 15 := by
  refine ⟨vec4_exact, vec1_exact, fun _ _ _ _ => rfl, fun _ _ _ _ => rfl, ?_, ?_, by decide⟩
  · rw [vectorized_unary_transform, vectorized_iter_eq_run_calls, chunks_vec4_10]
    decide
  · rw [vectorized_unary_transform, vectorized_iter_eq_run_calls, chunks_vec1_10]
    decide

/-- C4, amended: for two vector classes (two instruction sets, of any two widths) that both meet
the load and store assumption, primitives that apply the same scalar function in every
lane, a length `N ≥ 0` and an output range that starts at or before each input range or
after its end, the unary transform at the first width, the unary transform at the second
width and the scalar element-by-element reference end in the same memory, hence agree
element for element on the `N` output elements; likewise for the binary transform. -/
theorem transforms_width_independent (V1 V2 : Vec (Mem α) α)
    (lane1 : V1.value_type → Int → α) (lane2 : V2.value_type → Int → α)
    (hV1 : V1.Exact lane1) (hV2 : V2.Exact lane2) (N : Int) (hN : 0 ≤ N) (m : Mem α) :
    (∀ (func1 : V1.value_type → V1.value_type) (func2 : V2.value_type → V2.value_type)
        (f : α → α), LaneWise V1 lane1 func1 f → LaneWise V2 lane2 func2 f →
        ∀ x y : Int, (y ≤ x ∨ x + N ≤ y) →
          vectorized_unary_transform V1 x y N func1 m
              = vectorized_unary_transform V2 x y N func2 m
          ∧ vectorized_unary_transform V1 x y N func1 m = scalar_unary_reference f x y N m
          ∧ ∀ i, 0 ≤ i → i < N →
              vectorized_unary_transform V1 x y N func1 m (y + i)
                = vectorized_unary_transform V2 x y N func2 m (y + i))
    ∧ (∀ (func1 : V1.value_type → V1.value_type → V1.value_type)
        (func2 : V2.value_type → V2.value_type → V2.value_type)
        (g : α → α → α), LaneWise2 V1 lane1 func1 g → LaneWise2 V2 lane2 func2 g →
        ∀ a b c : Int, (c ≤ a ∨ a + N ≤ c) → (c ≤ b ∨ b + N ≤ c) →
          vectorized_binary_transform V1 a b c N func1 m
              = vectorized_binary_transform V2 a b c N func2 m
          ∧ vectorized_binary_transform V1 a b c N func1 m
              = scalar_binary_reference g a b c N m
          ∧ ∀ i, 0 ≤ i → i < N →
              vectorized_binary_transform V1 a b c N func1 m (c + i)
                = vectorized_binary_transform V2 a b c N func2 m (c + i)) := by
  constructor
  · intro func1 func2 f hf1 hf2 x y hxy
    have e1 := unary_transform_written V1 lane1 hV1 func1 f hf1 x y N hN hxy m
    have e2 := unary_transform_written V2 lane2 hV2 func2 f hf2 x y N hN hxy m
    have e3 := scalar_unary_reference_written f x y N hN hxy m
    refine ⟨e1.trans e2.symm, e1.trans e3.symm, ?_⟩
    intro i _ _
    rw [e1, e2]
  · intro func1 func2 g hg1 hg2 a b c hca hcb
    have e1 := binary_transform_written V1 lane1 hV1 func1 g hg1 a b c N hN hca hcb m
    have e2 := binary_transform_written V2 lane2 hV2 func2 g hg2 a b c N hN hca hcb m
    have e3 := scalar_binary_reference_written g a b c N hN hca hcb m
    refine ⟨e1.trans e2.symm, e1.trans e3.symm, ?_⟩
    intro i _ _
    rw [e1, e2]

/-- C4 at widths 4 and 1, length 10, input at address 0 and output at address 100: `rcp`
at width 4 ends in the memory of `rcp` at width 1. -/
theorem transforms_width_independent_witness :
    vec4.Exact lane4 ∧ vec1.Exact lane1 ∧ (0 : Int) ≤ 10
    ∧ vectorized_unary_transform vec4 0 100 10 vec4.rcp mem0
        = vectorized_unary_transform vec1 0 100 10 vec1.rcp mem0 :=
  ⟨vec4_exact, vec1_exact, by decide,
    ((transforms_width_independent vec4 vec1 lane4 lane1 vec4_exact vec1_exact 10
      (by decide) mem0).1 vec4.rcp vec1.rcp intOps.rcp (fun _ _ _ _ => rfl)
      (fun _ _ _ _ => rfl) 0 100 (by decide)).1⟩

/-- C5: for a length `N ≥ 0`, with `q = N / W` and `r = N % W`, the calls of
`vectorized_iter<W>(N, func)` are `func(0, W), func(W, W), ..., func((q-1) W, W)` in this
order, followed by the single call `func(q W, r)` when `r ≠ 0` and by nothing when
`r = 0`; the routine run with any callback is these calls run in this order; `q W` is
`N - r`, and `0 ≤ r < W`, so that a remainder call has `0 < r < W`. -/
theorem vectorized_iter_calls (W : Int) (hw : 0 < W) (N : Int) (hN : 0 ≤ N) :
    iter_calls W hw N
      = (List.range (N / W).toNat).map (fun k : Nat => ((k : Int) * W, W))
          ++ (if N % W = 0 then [] else [((N / W) * W, N % W)])
    ∧ (∀ (σ : Type) (func : Int → Int → σ → σ) (s : σ),
        vectorized_iter W hw N func s
          = ((List.range (N / W).toNat).map (fun k : Nat => ((k : Int) * W, W))
              ++ (if N % W = 0 then [] else [((N / W) * W, N % W)])).foldl
              (fun s c => func c.1 c.2 s) s)
    ∧ (((N / W).toNat : Int) = N / W ∧ (N / W) * W = N - N % W)
    ∧ (0 ≤ N % W ∧ N % W < W) := by
  have hq : 0 ≤ N / W := Int.ediv_nonneg hN hw.le
  have hdiv : N % W + W * (N / W) = N := Int.emod_add_ediv N W
  have hlist : chunks W N
      = (List.range (N / W).toNat).map (fun k : Nat => ((k : Int) * W, W))
          ++ (if N % W = 0 then [] else [((N / W) * W, N % W)]) := by
    rw [chunks_of_nonneg W hw N hN, full_chunks]
    by_cases hr : N % W = 0 <;> simp [hr]
  refine ⟨?_, ?_, ⟨Int.toNat_of_nonneg hq, by linarith⟩,
    Int.emod_nonneg N hw.ne', Int.emod_lt_of_pos N hw⟩
  · rw [iter_calls_eq_chunks, hlist]
  · intro σ func s
    rw [vectorized_iter_eq_run_calls, hlist, run_calls]

/-- C5 at width 4 and length 10: two full calls and a remainder call of width 2. -/
theorem vectorized_iter_calls_witness :
    (0 : Int) ≤ 10 ∧ iter_calls 4 (by decide) 10 = [(0, 4), (4, 4), (8, 2)] :=
  ⟨by decide, (vectorized_iter_calls 4 (by decide) 10 (by decide)).1.trans (by decide)⟩

/-- C7: under the load and store assumption, for a length `N ≥ 0` and an output buffer
of `M` elements (there is something to say when `M > N`), the unary and the binary
transform leave every output element at an index `j` with `N ≤ j < M` as it was before
the call, whatever the primitive and wherever the input buffers lie. -/
theorem transforms_frame (V : Vec (Mem α) α) (lane : V.value_type → Int → α)
    (hV : V.Exact lane) (N : Int) (hN : 0 ≤ N) (M : Int) (m : Mem α) :
    (∀ (x y : Int) (func : V.value_type → V.value_type) (j : Int), N ≤ j → j < M →
      vectorized_unary_transform V x y N func m (y + j) = m (y + j))
    ∧ (∀ (a b c : Int) (func : V.value_type → V.value_type → V.value_type) (j : Int),
        N ≤ j → j < M → vectorized_binary_transform V a b c N func m (c + j) = m (c + j)) := by
  constructor
  · intro x y func j hj _
    exact unary_transform_frame V lane hV func x y N hN m (y + j) (by omega)
  · intro a b c func j hj _
    exact binary_transform_frame V lane hV func a b c N hN m (c + j) (by omega)

/-- C7 at width 4, length 10 and an output buffer of 12 elements at address 100: the
element of index 11 is untouched by `rcp`. -/
theorem transforms_frame_witness :
    vec4.Exact lane4 ∧ (0 : Int) ≤ 10
    ∧ vectorized_unary_transform vec4 0 100 10 vec4.rcp mem0 (100 + 11) = mem0 (100 + 11) :=
  ⟨vec4_exact, by decide,
    (transforms_frame vec4 lane4 vec4_exact 10 (by decide) 12 mem0).1
      0 100 vec4.rcp 11 (by decide) (by decide)⟩

/-- C8, as stated, fails when the output buffer starts inside the input buffer: at width
4 and length 10, with `x` at address 0 and `y` at address 2, the scalar form of `add`
with the scalar 7 leaves `y[4] = 21` while `x[4] + 7 = 20` for the `x[4]` of before the
call. -/
theorem scalar_forms_overlap_counterexample :
    vec4.Exact lane4 ∧ vec4.Broadcast lane4
    ∧ LaneWise2 vec4 lane4 vec4.add intOps.add
    ∧ add_scalar vec4 7 0 2 10 mem0 (2 + 4) = 21
    ∧ intOps.add (mem0 (0 + 4)) 7 = 20 := by
  refine ⟨vec4_exact, vec4_broadcast, fun _ _ _ _ _ => rfl, ?_, by decide⟩
  rw [add_scalar, vectorized_unary_transform, vectorized_iter_eq_run_calls, chunks_vec4_10]
  decide

/-- C8, amended: under the load and store assumption and with a broadcast that fills every lane,
for a scalar `s`, a length `N ≥ 0` and an output range that starts at or before the input
range or after its end, each of the scalar-broadcast forms `add`, `mul`, `max` and `min`
leaves `y[i] = op(x[i], s)` for every `0 ≤ i < N`, the buffer element as first operand,
and ends in the memory of the pointer form applied to `x` and to any buffer `b` that
holds `N` copies of `s` (and that the output does not overwrite before it is read). -/
theorem scalar_forms_correct (V : Vec (Mem α) α) (lane : V.value_type → Int → α)
    (hV : V.Exact lane) (hB : V.Broadcast lane) (s : α) (x y N : Int) (hN : 0 ≤ N)
    (hxy : y ≤ x ∨ x + N ≤ y) (m : Mem α) :
    (∀ g, LaneWise2 V lane V.add g →
      (∀ i, 0 ≤ i → i < N → add_scalar V s x y N m (y + i) = g (m (x + i)) s)
      ∧ ∀ b : Int, (∀ i, 0 ≤ i → i < N → m (b + i) = s) → (y ≤ b ∨ b + N ≤ y) →
          add_scalar V s x y N m = add V x b y N m)
    ∧ (∀ g, LaneWise2 V lane V.mul g →
      (∀ i, 0 ≤ i → i < N → mul_scalar V s x y N m (y + i) = g (m (x + i)) s)
      ∧ ∀ b : Int, (∀ i, 0 ≤ i → i < N → m (b + i) = s) → (y ≤ b ∨ b + N ≤ y) →
          mul_scalar V s x y N m = mul V x b y N m)
    ∧ (∀ g, LaneWise2 V lane V.max g →
      (∀ i, 0 ≤ i → i < N → max_scalar V s x y N m (y + i) = g (m (x + i)) s)
      ∧ ∀ b : Int, (∀ i, 0 ≤ i → i < N → m (b + i) = s) → (y ≤ b ∨ b + N ≤ y) →
          max_scalar V s x y N m = max V x b y N m)
    ∧ (∀ g, LaneWise2 V lane V.min g →
      (∀ i, 0 ≤ i → i < N → min_scalar V s x y N m (y + i) = g (m (x + i)) s)
      ∧ ∀ b : Int, (∀ i, 0 ≤ i → i < N → m (b + i) = s) → (y ≤ b ∨ b + N ≤ y) →
          min_scalar V s x y N m = min V x b y N m) := by
  have key : ∀ (prim : V.value_type → V.value_type → V.value_type) (g : α → α → α),
      LaneWise2 V lane prim g →
      (∀ i, 0 ≤ i → i < N →
        vectorized_unary_transform V x y N (fun v => prim v (V.load_value s m).1)
          (V.load_value s m).2 (y + i) = g (m (x + i)) s)
      ∧ ∀ b : Int, (∀ i, 0 ≤ i → i < N → m (b + i) = s) → (y ≤ b ∨ b + N ≤ y) →
          vectorized_unary_transform V x y N (fun v => prim v (V.load_value s m).1)
            (V.load_value s m).2 = vectorized_binary_transform V x b y N prim m := by
    intro prim g hg
    have e1 := broadcast_transform_written V lane hV hB prim g hg s x y N hN hxy m
    constructor
    · intro i h0 hi
      rw [e1, written_inside _ _ _ _ _ h0 hi]
    · intro b hb hby
      rw [e1, binary_const_written V lane hV prim g hg s x b y N hN hxy hby m hb]
  exact ⟨fun g hg => key V.add g hg, fun g hg => key V.mul g hg,
    fun g hg => key V.max g hg, fun g hg => key V.min g hg⟩

/-- C8 at width 4, scalar 7, length 10, input at address 0 and output at address 100: the
last element of the scalar form of `max` is `max(x[9], 7)`. -/
theorem scalar_forms_correct_witness :
    vec4.Exact lane4 ∧ vec4.Broadcast lane4 ∧ (0 : Int) ≤ 10
    ∧ ((100 : Int) ≤ 0 ∨ (0 : Int) + 10 ≤ 100)
    ∧ max_scalar vec4 7 0 100 10 mem0 (100 + 9) = intOps.max (mem0 (0 + 9)) 7 :=
  ⟨vec4_exact, vec4_broadcast, by decide, by decide,
    ((scalar_forms_correct vec4 lane4 vec4_exact vec4_broadcast 7 0 100 10 (by decide)
      (by decide) mem0).2.2.1 intOps.max (fun _ _ _ _ _ => rfl)).1 9 (by decide) (by decide)⟩

/-- C11: in each scalar-broadcast form (`add`, `mul`, `max`, `min` with a scalar first
argument), for every vector class and every length `N` (`N ≥ 0` in particular, `N = 0`
and any number of chunks included): the calls of the memory operations, as logged by the
instrumented vector class, are the broadcast `Vec::load(a)` first and then the loads and
stores of the chunks, the broadcast occurs exactly once in the log, and the form is the
run of the chunks with one and the same primitive, whose second operand is the register
that this broadcast returned. -/
theorem scalar_forms_broadcast_once (σ α : Type) (V : Vec σ α) (a : α) (x y N : Int) (s : σ) :
    ((add_scalar V.traced a x y N (s, [])).2
        = Access.broadcast :: (iter_calls V.width V.width_pos N).flatMap (unary_accesses x y)
      ∧ List.count Access.broadcast (add_scalar V.traced a x y N (s, [])).2 = 1
      ∧ add_scalar V a x y N s
        = run_calls (unary_chunk V x y (fun v => V.add v (V.load_value a s).1))
            (iter_calls V.width V.width_pos N) (V.load_value a s).2)
    ∧ ((mul_scalar V.traced a x y N (s, [])).2
        = Access.broadcast :: (iter_calls V.width V.width_pos N).flatMap (unary_accesses x y)
      ∧ List.count Access.broadcast (mul_scalar V.traced a x y N (s, [])).2 = 1
      ∧ mul_scalar V a x y N s
        = run_calls (unary_chunk V x y (fun v => V.mul v (V.load_value a s).1))
            (iter_calls V.width V.width_pos N) (V.load_value a s).2)
    ∧ ((max_scalar V.traced a x y N (s, [])).2
        = Access.broadcast :: (iter_calls V.width V.width_pos N).flatMap (unary_accesses x y)
      ∧ List.count Access.broadcast (max_scalar V.traced a x y N (s, [])).2 = 1
      ∧ max_scalar V a x y N s
        = run_calls (unary_chunk V x y (fun v => V.max v (V.load_value a s).1))
            (iter_calls V.width V.width_pos N) (V.load_value a s).2)
    ∧ ((min_scalar V.traced a x y N (s, [])).2
        = Access.broadcast :: (iter_calls V.width V.width_pos N).flatMap (unary_accesses x y)
      ∧ List.count Access.broadcast (min_scalar V.traced a x y N (s, [])).2 = 1
      ∧ min_scalar V a x y N s
        = run_calls (unary_chunk V x y (fun v => V.min v (V.load_value a s).1))
            (iter_calls V.width V.width_pos N) (V.load_value a s).2) := by
  have key : ∀ prim : V.value_type → V.value_type → V.value_type,
      (vectorized_unary_transform V.traced x y N
          (fun v => prim v (V.traced.load_value a (s, [])).1)
          (V.traced.load_value a (s, [])).2).2
        = Access.broadcast :: (iter_calls V.width V.width_pos N).flatMap (unary_accesses x y)
      ∧ List.count Access.broadcast
          (vectorized_unary_transform V.traced x y N
            (fun v => prim v (V.traced.load_value a (s, [])).1)
            (V.traced.load_value a (s, [])).2).2 = 1
      ∧ vectorized_unary_transform V x y N (fun v => prim v (V.load_value a s).1)
            (V.load_value a s).2
        = run_calls (unary_chunk V x y (fun v => prim v (V.load_value a s).1))
            (iter_calls V.width V.width_pos N) (V.load_value a s).2 := by
    intro prim
    refine ⟨broadcast_transform_traced_log V prim a x y N s, ?_,
      broadcast_transform_run_calls V prim a x y N s⟩
    rw [broadcast_transform_traced_log V prim a x y N s, List.count_cons_self,
      count_broadcast_unary_accesses]
  exact ⟨key V.add, key V.mul, key V.max, key V.min⟩

/-- C12: for a length `N ≥ 0`, the index ranges `[i, i + width)` of the calls of
`vectorized_iter<W>(N, func)` are visited in strictly increasing order of `i`, are
pairwise disjoint and have `[0, N)` as their union; every index `0 ≤ k < N` lies in the
range of exactly one call; the widths sum to `N`; the number of calls is `N / W` rounded
up, `(N + W - 1) / W`. -/
theorem vectorized_iter_partition (W : Int) (hw : 0 < W) (N : Int) (hN : 0 ≤ N) :
    List.Pairwise (fun c d : Int × Int => c.1 < d.1) (iter_calls W hw N)
    ∧ List.Pairwise (fun c d : Int × Int =>
        ∀ k, ¬ ((c.1 ≤ k ∧ k < c.1 + c.2) ∧ (d.1 ≤ k ∧ k < d.1 + d.2))) (iter_calls W hw N)
    ∧ (∀ k, (∃ c ∈ iter_calls W hw N, c.1 ≤ k ∧ k < c.1 + c.2) ↔ (0 ≤ k ∧ k < N))
    ∧ (∀ k, 0 ≤ k → k < N →
        List.countP (fun c : Int × Int => decide (c.1 ≤ k ∧ k < c.1 + c.2))
          (iter_calls W hw N) = 1)
    ∧ ((iter_calls W hw N).map Prod.snd).sum = N
    ∧ ((iter_calls W hw N).length : Int) = (N + W - 1) / W
    ∧ ((iter_calls W hw N).length : Int) = ⌈(N : ℚ) / (W : ℚ)⌉ := by
  have hs := chunks_sorted W hw N hN
  have hb := chunks_bounds W hw N hN
  have hq : 0 ≤ N / W := Int.ediv_nonneg hN hw.le
  have hcast : (((N / W).toNat : Nat) : Int) = N / W := Int.toNat_of_nonneg hq
  have hdiv : N % W + W * (N / W) = N := Int.emod_add_ediv N W
  have hlen : ((chunks W N).length : Int) = N / W + (if N % W = 0 then 0 else 1) := by
    rw [chunks_of_nonneg W hw N hN, List.length_append, full_chunks_length]
    by_cases hr : N % W = 0
    · simp [hr, hcast]
    · simp [hr, hcast]
  rw [iter_calls_eq_chunks]
  refine ⟨?_, ?_, ?_, ?_, ?_, ?_, ?_⟩
  · refine List.Pairwise.imp_of_mem ?_ hs
    intro c d hc _ hcd
    have := (hb c hc).2.1
    omega
  · refine List.Pairwise.imp ?_ hs
    intro c d hcd k
    omega
  · intro k
    constructor
    · rintro ⟨c, hc, h1, h2⟩
      obtain ⟨h0, _, _, h3⟩ := hb c hc
      exact ⟨by omega, by omega⟩
    · rintro ⟨h0, h1⟩
      exact chunks_cover W hw N k h0 h1
  · intro k h0 h1
    apply countP_eq_one_of_pairwise
    · refine List.Pairwise.imp ?_ hs
      intro c d hcd
      simp only [decide_eq_true_eq]
      omega
    · obtain ⟨c, hc, h⟩ := chunks_cover W hw N k h0 h1
      exact ⟨c, hc, by simpa using h⟩
  · rw [chunks_of_nonneg W hw N hN, List.map_append, List.sum_append, full_chunks_widths,
      hcast]
    by_cases hr : N % W = 0
    · simp [hr]
      linarith
    · simp [hr]
      linarith
  · rw [hlen, (ceil_div_eq W hw N).1]
  · rw [hlen, (ceil_div_eq W hw N).2]

/-- C12 at width 4 and length 10: index 9 lies in exactly one of the three calls. -/
theorem vectorized_iter_partition_witness :
    (0 : Int) < 4 ∧ (0 : Int) ≤ 10
    ∧ List.countP (fun c : Int × Int => decide (c.1 ≤ 9 ∧ 9 < c.1 + c.2))
        (iter_calls 4 (by decide) 10) = 1
    ∧ ((iter_calls 4 (by decide) 10).map Prod.snd).sum = 10
    ∧ ((iter_calls 4 (by decide) 10).length : Int) = (10 + 4 - 1) / 4 :=
  ⟨by decide, by decide,
    (vectorized_iter_partition 4 (by decide) 10 (by decide)).2.2.2.1 9 (by decide) (by decide),
    (vectorized_iter_partition 4 (by decide) 10 (by decide)).2.2.2.2.1,
    (vectorized_iter_partition 4 (by decide) 10 (by decide)).2.2.2.2.2.1⟩

/-- C13, as stated, fails for the binary transform run in place on `a` when `b` starts
before `a` and overlaps it: at width 4 and length 10, with `c = a` at address 2 and `b`
at address 0, `add` leaves `c[4] = 39` while `old a[4] + old b[4] = 32`; in the log of
this run the first chunk stores 4 elements at address 2 and the second chunk then loads 4
elements at address 4, so a chunk does read elements that an earlier chunk has
overwritten. -/
theorem transforms_in_place_counterexample :
    vec4.Exact lane4
    ∧ LaneWise2 vec4 lane4 vec4.add intOps.add
    ∧ add vec4 2 0 2 10 mem0 (2 + 4) = 39
    ∧ intOps.add (mem0 (2 + 4)) (mem0 (0 + 4)) = 32
    ∧ (add vec4.traced 2 0 2 10 (mem0, [])).2
        = [Access.load 2 4, Access.load 0 4, Access.store 2 4,
           Access.load 6 4, Access.load 4 4, Access.store 6 4,
           Access.load 10 2, Access.load 8 2, Access.store 10 2]
    ∧ ¬ store_clear_of_load (Access.store 2 4) (Access.load 4 4)
    ∧ ¬ List.Pairwise store_clear_of_load (add vec4.traced 2 0 2 10 (mem0, [])).2 := by
  have hlog : (add vec4.traced 2 0 2 10 (mem0, [])).2
      = [Access.load 2 4, Access.load 0 4, Access.store 2 4,
         Access.load 6 4, Access.load 4 4, Access.store 6 4,
         Access.load 10 2, Access.load 8 2, Access.store 10 2] := by
    rw [add, binary_transform_traced_log, chunks_vec4_10]
    decide
  have hbad : ¬ store_clear_of_load (Access.store 2 4) (Access.load 4 4) := by
    simp only [store_clear_of_load]
    decide
  refine ⟨vec4_exact, fun _ _ _ _ _ => rfl, ?_, by decide, hlog, hbad, ?_⟩
  · rw [add, vectorized_binary_transform, vectorized_iter_eq_run_calls, chunks_vec4_10]
    decide
  · rw [hlog]
    intro h
    exact hbad (List.pairwise_iff_forall_sublist.mp h (by decide))

/-- C13, amended: under the load and store assumption, for a length `N ≥ 0` and lane-wise
primitives: the unary transform run in place (`y = x`) leaves
`buffer[i] = f(old buffer[i])` for every `0 ≤ i < N`, which is what an out-of-place run
to a separate buffer `y` leaves in `y[i]`; the binary transform with `c = a`, or with
`c = b`, the other input starting at or after `c` or ending before it, leaves
`c[i] = g(old a[i], old b[i])`, as an out-of-place run does; and in the logs of these
in-place runs on the instrumented vector class, no load reads a range that an earlier
store has touched. -/
theorem transforms_in_place (V : Vec (Mem α) α) (lane : V.value_type → Int → α)
    (hV : V.Exact lane) (N : Int) (hN : 0 ≤ N) (m : Mem α) :
    (∀ (func : V.value_type → V.value_type) (f : α → α), LaneWise V lane func f →
      ∀ x : Int,
        (∀ i, 0 ≤ i → i < N →
          vectorized_unary_transform V x x N func m (x + i) = f (m (x + i)))
        ∧ ∀ y : Int, (y + N ≤ x ∨ x + N ≤ y) → ∀ i, 0 ≤ i → i < N →
            vectorized_unary_transform V x x N func m (x + i)
              = vectorized_unary_transform V x y N func m (y + i))
    ∧ (∀ (func : V.value_type → V.value_type → V.value_type) (g : α → α → α),
        LaneWise2 V lane func g → ∀ a b : Int,
        ((a ≤ b ∨ b + N ≤ a) →
          (∀ i, 0 ≤ i → i < N →
            vectorized_binary_transform V a b a N func m (a + i) = g (m (a + i)) (m (b + i)))
          ∧ ∀ c : Int, (c + N ≤ a ∨ a + N ≤ c) → (c + N ≤ b ∨ b + N ≤ c) →
              ∀ i, 0 ≤ i → i < N →
                vectorized_binary_transform V a b a N func m (a + i)
                  = vectorized_binary_transform V a b c N func m (c + i))
        ∧ ((b ≤ a ∨ a + N ≤ b) →
          (∀ i, 0 ≤ i → i < N →
            vectorized_binary_transform V a b b N func m (b + i) = g (m (a + i)) (m (b + i)))
          ∧ ∀ c : Int, (c + N ≤ a ∨ a + N ≤ c) → (c + N ≤ b ∨ b + N ≤ c) →
              ∀ i, 0 ≤ i → i < N →
                vectorized_binary_transform V a b b N func m (b + i)
                  = vectorized_binary_transform V a b c N func m (c + i)))
    ∧ (∀ (σ1 α1 : Type) (V1 : Vec σ1 α1) (x : Int) (func : V1.value_type → V1.value_type)
        (s : σ1),
        List.Pairwise store_clear_of_load
          (vectorized_unary_transform V1.traced x x N func (s, [])).2)
    ∧ (∀ (σ1 α1 : Type) (V1 : Vec σ1 α1) (a b : Int)
        (func : V1.value_type → V1.value_type → V1.value_type) (s : σ1),
        ((a ≤ b ∨ b + N ≤ a) →
          List.Pairwise store_clear_of_load
            (vectorized_binary_transform V1.traced a b a N func (s, [])).2)
        ∧ ((b ≤ a ∨ a + N ≤ b) →
          List.Pairwise store_clear_of_load
            (vectorized_binary_transform V1.traced a b b N func (s, [])).2)) := by
  refine ⟨?_, ?_, ?_, ?_⟩
  · intro func f hf x
    have e1 := unary_transform_written V lane hV func f hf x x N hN (Or.inl le_rfl) m
    constructor
    · intro i h0 hi
      rw [e1, written_inside _ _ _ _ _ h0 hi]
    · intro y hy i h0 hi
      have e2 := unary_transform_written V lane hV func f hf x y N hN (by omega) m
      rw [e1, e2, written_inside _ _ _ _ _ h0 hi, written_inside _ _ _ _ _ h0 hi]
  · intro func g hg a b
    constructor
    · intro hab
      have e1 := binary_transform_written V lane hV func g hg a b a N hN (Or.inl le_rfl) hab m
      constructor
      · intro i h0 hi
        rw [e1, written_inside _ _ _ _ _ h0 hi]
      · intro c hca hcb i h0 hi
        have e2 := binary_transform_written V lane hV func g hg a b c N hN (by omega)
          (by omega) m
        rw [e1, e2, written_inside _ _ _ _ _ h0 hi, written_inside _ _ _ _ _ h0 hi]
    · intro hba
      have e1 := binary_transform_written V lane hV func g hg a b b N hN hba (Or.inl le_rfl) m
      constructor
      · intro i h0 hi
        rw [e1, written_inside _ _ _ _ _ h0 hi]
      · intro c hca hcb i h0 hi
        have e2 := binary_transform_written V lane hV func g hg a b c N hN (by omega)
          (by omega) m
        rw [e1, e2, written_inside _ _ _ _ _ h0 hi, written_inside _ _ _ _ _ h0 hi]
  · intro σ1 α1 V1 x func s
    rw [unary_transform_traced_log]
    exact unary_log_clear V1.width V1.width_pos x x N hN (Or.inl le_rfl)
  · intro σ1 α1 V1 a b func s
    constructor
    · intro hab
      rw [binary_transform_traced_log]
      exact binary_log_clear V1.width V1.width_pos a b a N hN (Or.inl le_rfl) hab
    · intro hba
      rw [binary_transform_traced_log]
      exact binary_log_clear V1.width V1.width_pos a b b N hN hba (Or.inl le_rfl)

/-- C13 at width 4 and length 10, in place at address 0: the last element after `rcp` is
`rcp` of what it was. -/
theorem transforms_in_place_witness :
    vec4.Exact lane4 ∧ (0 : Int) ≤ 10
    ∧ vectorized_unary_transform vec4 0 0 10 vec4.rcp mem0 (0 + 9) = intOps.rcp (mem0 (0 + 9)) :=
  ⟨vec4_exact, by decide,
    ((transforms_in_place vec4 lane4 vec4_exact 10 (by decide) mem0).1 vec4.rcp intOps.rcp
      (fun _ _ _ _ => rfl) 0).1 9 (by decide) (by decide)⟩

/-- C14: for a negative size `N`, with `%` the truncating remainder: the rounded size
`N - N % W` is not positive, so the loop condition fails at once and the full-stride loop
runs zero times, whatever the callback; the calls are none when `N % W = 0`, that is when
`W` divides `N`, and otherwise the single call `func(N - N % W, N % W)`, whose width
`N % W` is negative (above `-W`) and whose index `N - N % W` is a multiple of `W` that is
not positive; no call has a positive width. -/
theorem vectorized_iter_negative (W : Int) (hw : 0 < W) (N : Int) (hN : N < 0) :
    (N - Int.tmod N W ≤ 0
      ∧ ∀ (σ : Type) (func : Int → Int → σ → σ) (s : σ),
          vectorized_iter_loop W hw (N - Int.tmod N W) func 0 s = s)
    ∧ iter_calls W hw N
        = (if Int.tmod N W = 0 then [] else [(N - Int.tmod N W, Int.tmod N W)])
    ∧ (∀ (σ : Type) (func : Int → Int → σ → σ) (s : σ),
        vectorized_iter W hw N func s
          = if Int.tmod N W = 0 then s else func (N - Int.tmod N W) (Int.tmod N W) s)
    ∧ (∀ c ∈ iter_calls W hw N, c.2 < 0)
    ∧ (W ∣ N ↔ Int.tmod N W = 0)
    ∧ (W ∣ N → iter_calls W hw N = [])
    ∧ (¬ W ∣ N →
        iter_calls W hw N = [(N - Int.tmod N W, Int.tmod N W)]
        ∧ Int.tmod N W < 0 ∧ -W < Int.tmod N W
        ∧ N - Int.tmod N W ≤ 0 ∧ W ∣ N - Int.tmod N W) := by
  obtain ⟨hq, hr0, hrW⟩ := tdiv_tmod_of_neg W hw N hN
  have hsize : N - Int.tmod N W = W * Int.tdiv N W := by rw [Int.tmod_def]; ring
  have hsize0 : N - Int.tmod N W ≤ 0 := by
    rw [hsize]
    exact Int.mul_nonpos_of_nonneg_of_nonpos hw.le hq
  have hcalls : iter_calls W hw N
      = (if Int.tmod N W = 0 then [] else [(N - Int.tmod N W, Int.tmod N W)]) := by
    rw [iter_calls_eq_chunks, chunks_of_neg W hw N hN]
  have hdvd : W ∣ N ↔ Int.tmod N W = 0 :=
    ⟨Int.tmod_eq_zero_of_dvd, Int.dvd_of_tmod_eq_zero⟩
  refine ⟨⟨hsize0, ?_⟩, hcalls, ?_, ?_, hdvd, ?_, ?_⟩
  · intro σ func s
    exact vectorized_iter_loop_ge W hw _ func 0 s hsize0
  · intro σ func s
    rw [vectorized_iter_eq_run_calls, chunks_of_neg W hw N hN]
    by_cases hr : Int.tmod N W = 0 <;> simp [hr, run_calls]
  · intro c hc
    rw [hcalls] at hc
    by_cases hr : Int.tmod N W = 0
    · simp [hr] at hc
    · rw [if_neg hr, List.mem_singleton] at hc
      subst hc
      show Int.tmod N W < 0
      omega
  · intro h
    rw [hcalls, if_pos (hdvd.mp h)]
  · intro h
    have hr : Int.tmod N W ≠ 0 := fun h0 => h (hdvd.mpr h0)
    refine ⟨by rw [hcalls, if_neg hr], by omega, hrW, hsize0, ?_⟩
    rw [hsize]
    exact Dvd.intro _ rfl

/-- C14 at width 4 and size -10: the only call is `func(-8, -2)`. -/
theorem vectorized_iter_negative_witness :
    (0 : Int) < 4 ∧ (-10 : Int) < 0 ∧ iter_calls 4 (by decide) (-10) = [(-8, -2)] :=
  ⟨by decide, by decide,
    (vectorized_iter_negative 4 (by decide) (-10) (by decide)).2.1.trans (by decide)⟩

end cpu

/-! ## The model registry: the claims -/

namespace models

variable {StorageView T ε : Type}

/-- C6: whatever the lookup (hence for every registry state), the name and the default
`d`: when `get_variable_if_exists(name)` finds no variable, `get_attribute_with_default`
returns exactly `d` and does not fail; when it finds a variable `v`, the result is that
of `v.as_scalar<T>()`, in which `d` plays no part. -/
theorem get_attribute_with_default_spec (get_variable_if_exists : String → Option StorageView)
    (as_scalar : StorageView → Except ε T) (name : String) (d : T) :
    (get_variable_if_exists name = none →
      get_attribute_with_default get_variable_if_exists as_scalar name d = Except.ok d)
    ∧ (∀ v, get_variable_if_exists name = some v →
        get_attribute_with_default get_variable_if_exists as_scalar name d = as_scalar v
        ∧ ∀ d1 : T, get_attribute_with_default get_variable_if_exists as_scalar name d1
            = get_attribute_with_default get_variable_if_exists as_scalar name d) := by
  constructor
  · intro h
    simp only [get_attribute_with_default, h]
  · intro v h
    simp only [get_attribute_with_default, h, implies_true, and_self]

/-- C9: `current_binary_version` is 4, and for a container whose header reads with spec
revision `r`: if `r = current_binary_version + 1`, and more generally if
`r > current_binary_version`, loading fails with `UnsupportedRevisionError` and yields no
model; if `r ≤ current_binary_version`, the revision check lets the container through and
loading is the loading of its variables. -/
theorem load_rejects_newer_revision (read_header : String → Except Error Header)
    (load_variables : String → Header → Except Error (Model StorageView))
    (path : String) (header : Header) (hread : read_header path = Except.ok header) :
    current_binary_version = 4
    ∧ (header.spec_revision = current_binary_version + 1 →
        load read_header load_variables path = Except.error Error.UnsupportedRevisionError)
    ∧ (header.spec_revision > current_binary_version →
        load read_header load_variables path = Except.error Error.UnsupportedRevisionError
        ∧ ∀ model, load read_header load_variables path ≠ Except.ok model)
    ∧ (header.spec_revision ≤ current_binary_version →
        load read_header load_variables path = load_variables path header) := by
  have hgt : header.spec_revision > current_binary_version →
      load read_header load_variables path = Except.error Error.UnsupportedRevisionError := by
    intro h
    simp only [load, hread, if_pos h]
  refine ⟨rfl, fun h => hgt (by omega), fun h => ⟨hgt h, ?_⟩, ?_⟩
  · intro model hm
    rw [hgt h] at hm
    cases hm
  · intro h
    have hn : ¬ header.spec_revision > current_binary_version := by omega
    simp only [load, hread, if_neg hn]

/-- C9 at a container whose header carries revision 5: loading fails with
`UnsupportedRevisionError`. -/
theorem load_rejects_newer_revision_witness :
    (fun _ : String => (Except.ok (Header.mk 5) : Except Error Header)) "model.bin"
      = Except.ok (Header.mk 5)
    ∧ load (fun _ => Except.ok (Header.mk 5)) (fun _ _ => Except.ok shadowed_registry)
        "model.bin" = Except.error Error.UnsupportedRevisionError :=
  ⟨rfl, (load_rejects_newer_revision (fun _ => Except.ok (Header.mk 5))
    (fun _ _ => Except.ok shadowed_registry) "model.bin" (Header.mk 5) rfl).2.1 rfl⟩

end models

end ctranslate2
